import Mathlib

/-!
# PyrolysisGA: the optimisation engine (`OptimizationEngine.cpp`)

A shallow embedding of `OptimizationEngine::FitnessFce`, `InitPop`, `SaveResults`
and the prologue of `Run`, together with the properties of them that the
specification states.

## Numbers

The source computes in C++ `double`.  `Dbl` below is IEEE-754 binary64 with
round-to-nearest-even: a finite value is a pair `fin m e` standing for `m * 2 ^ e`,
every arithmetic operation computes the exact dyadic result and rounds it with
`Dbl.round` (53 significant bits, exponents `-1074 .. 971`, overflow to an
infinity, gradual underflow).  The sign of zero is not represented: no operation
the engine performs (`-`, `+`, `*`, `isfinite`, comparisons) can tell the two
zeros apart, and how a zero is printed is left to the formatting parameter.  The
last section shows that `Dbl.round` returns binary64 values only, leaves a binary64
value as it is, and moves a magnitude by at most half a unit in the last place.

## External collaborators

`Integrator::Runge23` (the forward model), the EO random generator `rng`, and the
stream formatting of a `double` are not part of the translated sources; they
are parameters of the definitions that call them.
-/

set_option exponentiation.threshold 5000

namespace PyrolysisGA

/-! ## binary64 -/

/-- A `double`: not-a-number, the two infinities, or the finite value `m * 2 ^ e`. -/
inductive Dbl where
  | nan : Dbl
  | pinf : Dbl
  | ninf : Dbl
  | fin (m : Int) (e : Int) : Dbl
deriving DecidableEq, Repr

/-- Worker of `bitlen`: strips 1024, 32 or 1 low bits per step. -/
def bitlenAux : Nat → Nat → Nat
  | 0, _ => 0
  | fuel + 1, n =>
    if n = 0 then 0
    else if 2 ^ 1024 ≤ n then bitlenAux fuel (n / 2 ^ 1024) + 1024
    else if 2 ^ 32 ≤ n then bitlenAux fuel (n / 2 ^ 32) + 32
    else bitlenAux fuel (n / 2) + 1

/-- Number of binary digits of `n` (`0` for `n = 0`). -/
def bitlen (n : Nat) : Nat := bitlenAux n n

/-- Round the positive magnitude `a * 2 ^ e` to 53 significant bits (fewer in the
subnormal range), ties to even.  Returns the new mantissa and exponent; the
exponent exceeds 971 exactly when the rounded magnitude is `2 ^ 1024` or more. -/
def roundMag (a : Nat) (e : Int) : Nat × Int :=
  let e1 : Int := max ((bitlen a : Int) + e - 53) (-1074)
  if e1 ≤ e then (a * 2 ^ (e - e1).toNat, e1)
  else
    let k := (e1 - e).toNat
    let q := a / 2 ^ k
    let r := a % 2 ^ k
    let h := 2 ^ (k - 1)
    let q1 := if h < r ∨ (r = h ∧ q % 2 = 1) then q + 1 else q
    if q1 = 2 ^ 53 then (2 ^ 52, e1 + 1) else (q1, e1)

namespace Dbl

/-- The literal `0.0`. -/
def zero : Dbl := fin 0 0

/-- The binary64 value nearest to `m * 2 ^ e` (ties to even); an infinity on overflow. -/
def round (m : Int) (e : Int) : Dbl :=
  match roundMag m.natAbs e with
  | (q, e1) =>
    if q = 0 then zero
    else if 971 < e1 then (if m < 0 then ninf else pinf)
    else if m < 0 then fin (-(q : Int)) e1 else fin (q : Int) e1

/-- The value of the decimal literal `n * 10 ^ x`, as the compiler converts it:
the nearest binary64.  For a negative `x` the quotient is computed with 64 guard
bits and a sticky bit before the final rounding. -/
def ofSci (n : Int) (x : Int) : Dbl :=
  if 0 ≤ x then
    round (n * ((10 ^ x.toNat : Nat) : Int)) 0
  else
    let d := 10 ^ (-x).toNat
    let s := bitlen d + 64
    let a := n.natAbs * 2 ^ s
    let sticky : Nat := if a % d = 0 then 0 else 1
    let q : Int := ((2 * (a / d) + sticky : Nat) : Int)
    round (if n < 0 then -q else q) (-((s : Int) + 1))

/-- The C library predicate `std::isfinite`. -/
def isfinite : Dbl → Bool
  | fin _ _ => true
  | _ => false

/-- Unary minus. -/
def neg : Dbl → Dbl
  | nan => nan
  | pinf => ninf
  | ninf => pinf
  | fin m e => fin (-m) e

/-- The operator `+` on doubles. -/
def add : Dbl → Dbl → Dbl
  | nan, _ => nan
  | _, nan => nan
  | pinf, ninf => nan
  | ninf, pinf => nan
  | pinf, _ => pinf
  | ninf, _ => ninf
  | _, pinf => pinf
  | _, ninf => ninf
  | fin m1 e1, fin m2 e2 =>
    round (m1 * ((2 ^ (e1 - min e1 e2).toNat : Nat) : Int)
            + m2 * ((2 ^ (e2 - min e1 e2).toNat : Nat) : Int)) (min e1 e2)

/-- The operator `-` on doubles. -/
def sub : Dbl → Dbl → Dbl
  | nan, _ => nan
  | _, nan => nan
  | pinf, pinf => nan
  | ninf, ninf => nan
  | pinf, _ => pinf
  | ninf, _ => ninf
  | _, pinf => ninf
  | _, ninf => pinf
  | fin m1 e1, fin m2 e2 =>
    round (m1 * ((2 ^ (e1 - min e1 e2).toNat : Nat) : Int)
            - m2 * ((2 ^ (e2 - min e1 e2).toNat : Nat) : Int)) (min e1 e2)

/-- The operator `*` on doubles. -/
def mul : Dbl → Dbl → Dbl
  | nan, _ => nan
  | _, nan => nan
  | pinf, pinf => pinf
  | pinf, ninf => ninf
  | ninf, pinf => ninf
  | ninf, ninf => pinf
  | pinf, fin m _ => if m = 0 then nan else if m < 0 then ninf else pinf
  | ninf, fin m _ => if m = 0 then nan else if m < 0 then pinf else ninf
  | fin m _, pinf => if m = 0 then nan else if m < 0 then ninf else pinf
  | fin m _, ninf => if m = 0 then nan else if m < 0 then pinf else ninf
  | fin m1 e1, fin m2 e2 => round (m1 * m2) (e1 + e2)

/-- The operator `<` on doubles (false whenever an operand is NaN). -/
def lt : Dbl → Dbl → Bool
  | nan, _ => false
  | _, nan => false
  | _, ninf => false
  | pinf, _ => false
  | ninf, _ => true
  | _, pinf => true
  | fin m1 e1, fin m2 e2 =>
    decide (m1 * ((2 ^ (e1 - min e1 e2).toNat : Nat) : Int)
              < m2 * ((2 ^ (e2 - min e1 e2).toNat : Nat) : Int))

/-- The operator `<=` on doubles (false whenever an operand is NaN). -/
def le : Dbl → Dbl → Bool
  | nan, _ => false
  | _, nan => false
  | ninf, _ => true
  | _, pinf => true
  | _, ninf => false
  | pinf, _ => false
  | fin m1 e1, fin m2 e2 =>
    decide (m1 * ((2 ^ (e1 - min e1 e2).toNat : Nat) : Int)
              ≤ m2 * ((2 ^ (e2 - min e1 e2).toNat : Nat) : Int))

instance : LT Dbl := ⟨fun a b => Dbl.lt a b = true⟩

instance : LE Dbl := ⟨fun a b => Dbl.le a b = true⟩

instance (a b : Dbl) : Decidable (a < b) := inferInstanceAs (Decidable (Dbl.lt a b = true))

instance (a b : Dbl) : Decidable (a ≤ b) := inferInstanceAs (Decidable (Dbl.le a b = true))

end Dbl

/-- The values a binary64 variable can hold: NaN, the infinities, zero, and
`m * 2 ^ e` with `|m| < 2 ^ 53` and `-1074 <= e <= 971`, the mantissa using all 53 bits
unless the exponent is the least one. -/
def Dbl.IsBinary64 : Dbl → Prop
  | Dbl.fin m e =>
    (m = 0 ∧ e = 0)
      ∨ (m ≠ 0 ∧ m.natAbs < 2 ^ 53 ∧ -1074 ≤ e ∧ e ≤ 971 ∧ (2 ^ 52 ≤ m.natAbs ∨ e = -1074))
  | _ => True

/-- The rational number a finite double stands for (`0` for the other values);
used to reason about comparisons. -/
def Dbl.toRat : Dbl → ℚ
  | Dbl.fin m e => (m : ℚ) * (2 : ℚ) ^ e
  | _ => 0

/-! ## The engine's data -/

/-- One experimental record; `Time()`, `Temp()` and `MassFrac()` read the fields. -/
structure ExpData where
  time : Dbl
  temp : Dbl
  massFrac : Dbl
deriving DecidableEq, Repr

/-- The experimental data `std::vector<ExpData>`.  The loops over it count with an
`unsigned int`, so the vectors they can traverse have fewer than `2 ^ 32` samples. -/
structure DataSet where
  samples : List ExpData
  size_lt : samples.length < 2 ^ 32

/-- The scratch array `ModData` (`double*`), cell by cell. -/
abbrev Buf := Nat → Dbl

/-- The forward model `Integrator::Runge23(DataSet, ModData, A, E, NS, yinf)`: given the
data, the current contents of the scratch array and the four parameters, the
contents of the scratch array when it returns. -/
abbrev ForwardModel := DataSet → Buf → Dbl → Dbl → Dbl → Dbl → Buf

/-- The mass fraction `(*DataSet)[i].MassFrac()`; the loops only read `i < size`. -/
def massFracAt (ds : DataSet) (i : Nat) : Dbl :=
  match ds.samples[i]? with
  | some d => d.massFrac
  | none => Dbl.nan

/-- The literal `-1e300` returned for a non-finite fitness. -/
def sentinel : Dbl := Dbl.ofSci (-1) 300

/-- One pass of the residual loop body: `delta = data - model; fitness -= delta*delta`. -/
def residualStep (ds : DataSet) (mod : Buf) (fitness : Dbl) (i : Nat) : Dbl :=
  let delta := Dbl.sub (massFracAt ds i) (mod i)
  Dbl.sub fitness (Dbl.mul delta delta)

/-- The loop `for (unsigned int i = 1; i < DataSet->size(); i++)` of `FitnessFce`,
started from `fitness = 0.0`. -/
def residualLoop (ds : DataSet) (mod : Buf) : Dbl :=
  (List.range' 1 (ds.samples.length - 1)).foldl (residualStep ds mod) Dbl.zero

/-- `OptimizationEngine::FitnessFce`: the fitness of the parameter vector `pars`,
and the scratch array as the forward model left it.  `none` when `pars` has
fewer than four entries (the source then reads outside the vector). -/
def FitnessFce (runge23 : ForwardModel) (ds : DataSet) (modData : Buf) (pars : List Dbl) :
    Option (Dbl × Buf) :=
  match pars[0]?, pars[1]?, pars[2]?, pars[3]? with
  | some a, some e, some ns, some yinf =>
    let mod := runge23 ds modData a e ns yinf
    let fitness := residualLoop ds mod
    if !fitness.isfinite then some (sentinel, mod) else some (fitness, mod)
  | _, _, _, _ => none

/-- The sum of squared residuals as the specification words it: over the sample
indices `1 .. n-1`, in increasing order, of `(dataset[i].mass_fraction - trajectory[i])^2`,
added up in `double` arithmetic starting from `0.0`. -/
def sumSqResiduals (ds : DataSet) (traj : Buf) : Dbl :=
  (List.range' 1 (ds.samples.length - 1)).foldl
    (fun s i =>
      Dbl.add s (Dbl.mul (Dbl.sub (massFracAt ds i) (traj i)) (Dbl.sub (massFracAt ds i) (traj i))))
    Dbl.zero

/-! ## Individuals, the random generator and `InitPop` -/

/-- The constant `A_initial = 5.49e12`. -/
def A_initial : Dbl := Dbl.ofSci 549 10

/-- The constant `E_initial = 1.70e5`. -/
def E_initial : Dbl := Dbl.ofSci 170 3

/-- The constant `NS_initial = 3.56`. -/
def NS_initial : Dbl := Dbl.ofSci 356 (-2)

/-- The constant `yinf_initial = 0.231642`. -/
def yinf_initial : Dbl := Dbl.ofSci 231642 (-6)

/-- The constant `SEED = 1337`. -/
def SEED : Int := 1337

/-- The constant `POP_SIZE = 100`. -/
def POP_SIZE : Int := 100

/-- An individual `Indi`: the gene vector and the cached fitness, which is `none`
while the fitness is invalid (as it is for a freshly constructed individual). -/
structure Indi where
  genes : List Dbl
  fitness : Option Dbl
deriving DecidableEq, Repr

/-- The global random generator `rng` of the EO library, over a state type `S`:
`uniform s lo hi` is the call `rng.uniform(lo, hi)`, `normal s` is the standard
normal draw `rng.normal()`, `reseed s seed` is `rng.reseed(seed)`; each returns the
generator's next state. -/
structure Rng (S : Type) where
  uniform : S → Dbl → Dbl → Dbl × S
  normal : S → Dbl × S
  reseed : S → Int → S

/-- The call `rng.normal(stdev)` of the EO generator (`eoRng::normal(double stdev)`):
a standard-normal draw scaled by the standard deviation, `stdev * normal()`. -/
def Rng.normalScaled {S : Type} (rng : Rng S) (s : S) (stdev : Dbl) : Dbl × S :=
  match rng.normal s with
  | (z, s1) => (Dbl.mul stdev z, s1)

/-- The expression `seed + rng.normal(seed * rng.uniform(0., 2.))`: the argument of
`normal` is evaluated first, so the uniform draw precedes the normal draw. -/
def perturb {S : Type} (rng : Rng S) (seed : Dbl) (s : S) : Dbl × S :=
  match rng.uniform s (Dbl.ofSci 0 0) (Dbl.ofSci 2 0) with
  | (u, s1) =>
    match rng.normalScaled s1 (Dbl.mul seed u) with
    | (x, s2) => (Dbl.add seed x, s2)

/-- The method `push_back` of an individual's gene vector. -/
def Indi.push_back (v : Indi) (x : Dbl) : Indi := { v with genes := v.genes ++ [x] }

/-- The evaluator `eoEvalFuncPtr` built on `FitnessFce`: an individual whose
fitness is invalid gets `FitnessFce` of its genes; a valid one is left alone. -/
def plainEval (runge23 : ForwardModel) (ds : DataSet) (modData : Buf) (v : Indi) :
    Option (Indi × Buf) :=
  match v.fitness with
  | some _ => some (v, modData)
  | none =>
    match FitnessFce runge23 ds modData v.genes with
    | some (f, mod) => some ({ v with fitness := some f }, mod)
    | none => none

/-- The body of the loop of `InitPop`: build `v` gene by gene, evaluate it, append it.
The state is the population, the generator state and the scratch array. -/
def InitPopBody {S : Type} (rng : Rng S) (runge23 : ForwardModel) (ds : DataSet)
    (st : List Indi × S × Buf) : Option (List Indi × S × Buf) :=
  match st with
  | (pop, s, modData) =>
    let v : Indi := ⟨[], none⟩
    match perturb rng A_initial s with
    | (gA, s1) =>
      let v := v.push_back gA
      match perturb rng E_initial s1 with
      | (gE, s2) =>
        let v := v.push_back gE
        match perturb rng NS_initial s2 with
        | (gNS, s3) =>
          let v := v.push_back gNS
          match perturb rng yinf_initial s3 with
          | (gY, s4) =>
            let v := v.push_back gY
            match plainEval runge23 ds modData v with
            | some (v, mod) => some (pop ++ [v], s4, mod)
            | none => none

/-- A counted loop: `body` run `k` times, stopping at the first failure. -/
def iterate {σ : Type} (body : σ → Option σ) : Nat → σ → Option σ
  | 0, st => some st
  | k + 1, st =>
    match body st with
    | some st1 => iterate body k st1
    | none => none

/-- `OptimizationEngine::InitPop(pop, eval)` with the population size as a parameter:
the loop `for (int i = 0; i < POP_SIZE; i++)` runs its body `popSize` times (not at
all for a non-positive `popSize`). -/
def InitPop {S : Type} (rng : Rng S) (runge23 : ForwardModel) (ds : DataSet) (popSize : Int)
    (pop : List Indi) (s : S) (modData : Buf) : Option (List Indi × S × Buf) :=
  iterate (InitPopBody rng runge23 ds) popSize.toNat (pop, s, modData)

/-- One gene as the specification describes it: a draw `u` from uniform(0, 2), then
a standard-normal draw `z`, giving `seed + z * (seed * u)`. -/
def specGene {S : Type} (rng : Rng S) (seed : Dbl) (s : S) : Dbl × S :=
  match rng.uniform s (Dbl.ofSci 0 0) (Dbl.ofSci 2 0) with
  | (u, s1) =>
    match rng.normal s1 with
    | (z, s2) => (Dbl.add seed (Dbl.mul z (Dbl.mul seed u)), s2)

/-- The genes of one individual as the specification describes them: the genes
`A`, `E`, `NS`, `yinf` drawn in this order from the seeds. -/
def specGenome {S : Type} (rng : Rng S) (s : S) : List Dbl × S :=
  match specGene rng A_initial s with
  | (gA, s1) =>
    match specGene rng E_initial s1 with
    | (gE, s2) =>
      match specGene rng NS_initial s2 with
      | (gNS, s3) =>
        match specGene rng yinf_initial s3 with
        | (gY, s4) => ([gA, gE, gNS, gY], s4)

/-- The gene vectors of `n` individuals as the specification describes them:
individual 0 first, each continuing the random stream where the previous one
left it. -/
def specPopulation {S : Type} (rng : Rng S) : Nat → S → List (List Dbl)
  | 0, _ => []
  | n + 1, s =>
    match specGenome rng s with
    | (g, s1) => g :: specPopulation rng n s1

/-- What `InitPop` guarantees of a genome: four genes, the `k`-th a perturbation of
the `k`-th seed in the order `A, E, NS, yinf`, and a cached fitness that is
`FitnessFce` of these genes. -/
def Evaluated (runge23 : ForwardModel) (ds : DataSet) (v : Indi) : Prop :=
  v.genes.length = 4
    ∧ (∃ xA xE xNS xY, v.genes = [Dbl.add A_initial xA, Dbl.add E_initial xE,
          Dbl.add NS_initial xNS, Dbl.add yinf_initial xY])
    ∧ ∃ modData f mod, FitnessFce runge23 ds modData v.genes = some (f, mod)
        ∧ v.fitness = some f

/-! ## The prologue of `Run` -/

/-- The engine's state once the population is initialised. -/
structure RunState (S : Type) where
  pop : List Indi
  rngState : S
  modData : Buf

/-- The opening statements of `OptimizationEngine::Run(dataSet)`, through the call
`InitPop(pop, plainEval)`: the dataset is installed, the scratch array is allocated
(`fresh` is what the new array happens to hold), the generator is reseeded with
`SEED`, and the empty population is filled.  No statement on this path inspects the
dataset or the population size, and none throws. -/
def RunPrologue {S : Type} (rng : Rng S) (runge23 : ForwardModel) (dataSet : DataSet)
    (fresh : Buf) (s : S) : Option (RunState S) :=
  let modData := fresh
  let s1 := rng.reseed s SEED
  let pop : List Indi := []
  match InitPop rng runge23 dataSet POP_SIZE pop s1 modData with
  | some (pop1, s2, mod) => some ⟨pop1, s2, mod⟩
  | none => none

/-! ## `SaveResults` -/

/-- The row `time,temp,massfrac,model` written for sample `i`; `fmt` is how the
stream prints a `double`. -/
def resultRow (fmt : Dbl → String) (ds : DataSet) (mod : Buf) (i : Nat) : String :=
  match ds.samples[i]? with
  | some d => fmt d.time ++ "," ++ fmt d.temp ++ "," ++ fmt d.massFrac ++ "," ++ fmt (mod i)
  | none => ""

/-- `OptimizationEngine::SaveResults(fitness, A, E, NS, yinf)`.  `openOk` tells whether
`results.xy` can be opened for writing, `file` is the content of `results.xy` before
the call (`none` when there is no such file) and `modData` the scratch array.  The
result is the outcome (`error msg` for the thrown failure), the content of
`results.xy` afterwards as a list of lines (each one ended by `std::endl`), and the
scratch array afterwards.  A stream that opened is taken to accept every write. -/
def SaveResults (fmt : Dbl → String) (runge23 : ForwardModel) (ds : DataSet) (openOk : Bool)
    (file : Option (List String)) (modData : Buf) (fitness a e ns yinf : Dbl) :
    Except String Unit × Option (List String) × Buf :=
  if !openOk then
    (Except.error "Unable to write results.xy", file, modData)
  else
    let out : List String := []
    let out1 := out ++ ["#Fitness:" ++ fmt fitness ++ ", A: " ++ fmt a ++ ", E: " ++ fmt e
      ++ ", NS: " ++ fmt ns ++ ", yinf: " ++ fmt yinf]
    let out2 := out1 ++ ["#Time,Temp,Exp,Model"]
    let mod := runge23 ds modData a e ns yinf
    let out3 := (List.range ds.samples.length).foldl
      (fun o i => o ++ [resultRow fmt ds mod i]) out2
    (Except.ok (), some out3, mod)

/-- The summary line as the specification words it: `Fitness:<f>, A:<a>, E:<e>, NS:<ns>, yinf:<y>`. -/
def specSummary (fmt : Dbl → String) (fitness a e ns yinf : Dbl) : String :=
  "Fitness:" ++ fmt fitness ++ ", A:" ++ fmt a ++ ", E:" ++ fmt e ++ ", NS:" ++ fmt ns
    ++ ", yinf:" ++ fmt yinf

/-- The column header as the specification words it. -/
def specHeader : String := "Time,Temp,Exp,Model"

/-! ## Replacement -/

/-- Modelled from the spec: the rank of a fitness among the kinds of value (invalid
or NaN, minus infinity, finite, plus infinity), which makes "sort by fitness" of
section 4.5 a total order; the fitness values `FitnessFce` returns are all finite. -/
def fitClass : Option Dbl → Nat
  | none => 0
  | some Dbl.nan => 0
  | some Dbl.ninf => 1
  | some (Dbl.fin _ _) => 2
  | some Dbl.pinf => 3

/-- Modelled from the spec: the comparison "at most" of two fitness values under
which section 4.5 sorts: the `<=` of doubles on finite values, extended to a total
preorder by the rank of `fitClass`. -/
def fitLe (x y : Option Dbl) : Bool :=
  match x, y with
  | some (Dbl.fin m1 e1), some (Dbl.fin m2 e2) => Dbl.le (Dbl.fin m1 e1) (Dbl.fin m2 e2)
  | _, _ => decide (fitClass x ≤ fitClass y)

/-- Modelled from the spec: the order "fitness descending" of section 4.5, `a` at
least as fit as `b`. -/
def Indi.ge (a b : Indi) : Prop := fitLe b.fitness a.fitness = true

instance : DecidableRel Indi.ge := fun a b =>
  inferInstanceAs (Decidable (fitLe b.fitness a.fitness = true))

/-- Modelled from the spec: the replacement `eoPlusReplacement` (EO library code,
absent from the translated sources).  Section 4.5: "pool parents and offspring
together, sort by fitness descending, keep the top `POP_SIZE`". -/
def plusReplacement (popSize : Nat) (parents offspring : List Indi) : List Indi :=
  ((parents ++ offspring).insertionSort Indi.ge).take popSize

/-- Modelled from the spec: the best fitness in a population (the statistic
`eoBestFitnessStat`); `none` for an empty population. -/
def bestFitness (pop : List Indi) : Option Dbl :=
  pop.foldl (fun b v => if fitLe b v.fitness then v.fitness else b) none

/-- Modelled from the spec: the population after `g` generations of the loop that `Run`
builds (`eoEasyEA` with `eoPlusReplacement`).  `breed` stands for selection,
variation and evaluation: it maps the generation number and the current
population to the evaluated offspring. -/
def evolve (popSize : Nat) (breed : Nat → List Indi → List Indi) (pop0 : List Indi) :
    Nat → List Indi
  | 0 => pop0
  | g + 1 =>
    plusReplacement popSize (evolve popSize breed pop0 g) (breed g (evolve popSize breed pop0 g))

/-- The rational value of a cached fitness (`0` unless it is finite); used to reason
about `fitLe`. -/
def fitVal : Option Dbl → ℚ
  | some d => d.toRat
  | none => 0

/-- The parents `{1, 2, 3, 4}` of the replacement scenario. -/
def scenarioParents : List Indi :=
  [⟨[], some (Dbl.ofSci 1 0)⟩, ⟨[], some (Dbl.ofSci 2 0)⟩, ⟨[], some (Dbl.ofSci 3 0)⟩,
   ⟨[], some (Dbl.ofSci 4 0)⟩]

/-- The offspring `{0, 5, 1.5, 2.5}` of the replacement scenario. -/
def scenarioOffspring : List Indi :=
  [⟨[], some (Dbl.ofSci 0 0)⟩, ⟨[], some (Dbl.ofSci 5 0)⟩, ⟨[], some (Dbl.ofSci 15 (-1))⟩,
   ⟨[], some (Dbl.ofSci 25 (-1))⟩]

/-! ## Concrete inputs used in the worked instances -/

/-- The three-sample dataset `[(0,300,1.0),(10,400,0.8),(20,500,0.5)]`. -/
def sampleData : DataSet :=
  ⟨[⟨Dbl.ofSci 0 0, Dbl.ofSci 300 0, Dbl.ofSci 1 0⟩,
    ⟨Dbl.ofSci 10 0, Dbl.ofSci 400 0, Dbl.ofSci 8 (-1)⟩,
    ⟨Dbl.ofSci 20 0, Dbl.ofSci 500 0, Dbl.ofSci 5 (-1)⟩], by decide⟩

/-- The dataset `sampleData` with the mass fraction of sample 0 changed to `0.9`. -/
def sampleDataAlt : DataSet :=
  ⟨[⟨Dbl.ofSci 0 0, Dbl.ofSci 300 0, Dbl.ofSci 9 (-1)⟩,
    ⟨Dbl.ofSci 10 0, Dbl.ofSci 400 0, Dbl.ofSci 8 (-1)⟩,
    ⟨Dbl.ofSci 20 0, Dbl.ofSci 500 0, Dbl.ofSci 5 (-1)⟩], by decide⟩

/-- A scratch array holding NaN in every cell. -/
def nanBuf : Buf := fun _ => Dbl.nan

/-- The scratch array holding the listed values in its first cells. -/
def bufOfList (l : List Dbl) : Buf := fun i => l.getD i Dbl.nan

/-- A forward model that answers `[1.0, 0.75, 0.5]` whatever it is asked. -/
def modelA : ForwardModel := fun _ _ _ _ _ _ =>
  bufOfList [Dbl.ofSci 1 0, Dbl.ofSci 75 (-2), Dbl.ofSci 5 (-1)]

/-- A forward model that answers `[0.0, 0.75, 0.5]` whatever it is asked. -/
def modelB : ForwardModel := fun _ _ _ _ _ _ =>
  bufOfList [Dbl.ofSci 0 0, Dbl.ofSci 75 (-2), Dbl.ofSci 5 (-1)]

/-- A forward model with three regimes, chosen by the first parameter `A`:
`A = 0` diverges at sample 1 (`[1.0, NaN, 0.5]`), `A = 1` diverges at sample 0
only (`[NaN, 0.8, 0.5]`), `A = 2` gives the finite but very large trajectory
`[1.0, 0.75, 1e151]`, and every other `A` gives `[1.0, 0.75, 0.5]`. -/
def modelC : ForwardModel := fun _ _ a _ _ _ =>
  if a = Dbl.ofSci 0 0 then bufOfList [Dbl.ofSci 1 0, Dbl.nan, Dbl.ofSci 5 (-1)]
  else if a = Dbl.ofSci 1 0 then bufOfList [Dbl.nan, Dbl.ofSci 8 (-1), Dbl.ofSci 5 (-1)]
  else if a = Dbl.ofSci 2 0 then bufOfList [Dbl.ofSci 1 0, Dbl.ofSci 75 (-2), Dbl.ofSci 1 151]
  else bufOfList [Dbl.ofSci 1 0, Dbl.ofSci 75 (-2), Dbl.ofSci 5 (-1)]

/-- A generator whose every uniform draw is `2.0` and every normal draw is `-1.0`. -/
def rngTwoMinusOne : Rng Unit where
  uniform := fun s _ _ => (Dbl.ofSci 2 0, s)
  normal := fun s => (Dbl.ofSci (-1) 0, s)
  reseed := fun s _ => s

/-- A generator over a counter: the `k`-th draw is `k / 4` (uniform) or `k / 4 - 1`
(normal), the counter advancing by one per draw; reseeding sets the counter. -/
def rngCounter : Rng Nat where
  uniform := fun s _ _ => (Dbl.round (s : Int) (-2), s + 1)
  normal := fun s => (Dbl.round ((s : Int) - 4) (-2), s + 1)
  reseed := fun _ seed => seed.toNat

/-- The dataset with no samples. -/
def emptyData : DataSet := ⟨[], by decide⟩

/-- The integer a double holds, when it holds one. -/
def Dbl.toInt? : Dbl → Option Int
  | Dbl.fin m e =>
    if 0 ≤ e then some (m * ((2 ^ e.toNat : Nat) : Int))
    else if m % ((2 ^ (-e).toNat : Nat) : Int) = 0 then some (m / ((2 ^ (-e).toNat : Nat) : Int))
    else none
  | _ => none

/-- How the stream prints a double that holds an integer of at most six digits (in
full, without a decimal point); `?` stands for the text of any other value. -/
def fmtInt (d : Dbl) : String :=
  match d.toInt? with
  | some n => if n.natAbs < 1000000 then toString n else "?"
  | none => "?"

/-- The dataset `[(0,300,1),(10,400,1),(20,500,0)]`. -/
def intData : DataSet :=
  ⟨[⟨Dbl.ofSci 0 0, Dbl.ofSci 300 0, Dbl.ofSci 1 0⟩,
    ⟨Dbl.ofSci 10 0, Dbl.ofSci 400 0, Dbl.ofSci 1 0⟩,
    ⟨Dbl.ofSci 20 0, Dbl.ofSci 500 0, Dbl.ofSci 0 0⟩], by decide⟩

/-- A forward model that answers `[1, 1, 0]` whatever it is asked. -/
def modelI : ForwardModel := fun _ _ _ _ _ _ =>
  bufOfList [Dbl.ofSci 1 0, Dbl.ofSci 1 0, Dbl.ofSci 0 0]

/-! ## Facts about binary64 -/

namespace Dbl

theorem neg_zero : neg zero = zero := rfl

theorem isfinite_neg (x : Dbl) : (neg x).isfinite = x.isfinite := by
  cases x <;> rfl

theorem neg_neg (x : Dbl) : neg (neg x) = x := by
  cases x <;> simp [neg]

end Dbl

theorem roundMag_zero (e : Int) : (roundMag 0 e).1 = 0 := by
  unfold roundMag
  simp only []
  split
  · simp
  · have h2 : ∀ k : Nat, ¬ ((2 : Nat) ^ k < 0) := fun k => Nat.not_lt_zero _
    have h3 : ∀ k : Nat, (0 : Nat) ≠ 2 ^ k := fun k => (Nat.two_pow_pos k).ne
    simp [h3]

namespace Dbl

theorem round_zero (e : Int) : round 0 e = zero := by
  have h := roundMag_zero e
  unfold round
  simp only [Int.natAbs_zero]
  rcases hr : roundMag 0 e with ⟨q, e1⟩
  rw [hr] at h
  simp only at h
  simp [h]

theorem round_neg (m e : Int) : round (-m) e = neg (round m e) := by
  by_cases hm : m = 0
  · subst hm
    simp [round_zero, neg_zero]
  · unfold round
    rw [Int.natAbs_neg]
    rcases roundMag m.natAbs e with ⟨q, e1⟩
    simp only
    by_cases hq : q = 0
    · simp [hq, neg_zero]
    · simp only [hq, if_false]
      by_cases he : 971 < e1
      · simp only [he, if_true]
        rcases lt_or_gt_of_ne hm with h | h
        · have : ¬ (-m < 0) := by omega
          simp [h, this, neg]
        · have : ¬ (m < 0) := by omega
          have h2 : -m < 0 := by omega
          simp [h2, this, neg]
      · simp only [he, if_false]
        rcases lt_or_gt_of_ne hm with h | h
        · have : ¬ (-m < 0) := by omega
          simp [h, this, neg]
        · have : ¬ (m < 0) := by omega
          have h2 : -m < 0 := by omega
          simp [h2, this, neg]

theorem sub_neg_left (s x : Dbl) : sub (neg s) x = neg (add s x) := by
  cases s <;> cases x <;> try rfl
  rename_i m1 e1 m2 e2
  show round (-m1 * ((2 ^ (e1 - min e1 e2).toNat : Nat) : Int)
            - m2 * ((2 ^ (e2 - min e1 e2).toNat : Nat) : Int)) (min e1 e2)
      = neg (round (m1 * ((2 ^ (e1 - min e1 e2).toNat : Nat) : Int)
            + m2 * ((2 ^ (e2 - min e1 e2).toNat : Nat) : Int)) (min e1 e2))
  rw [← round_neg]
  congr 1
  ring

theorem le_zero_fin (m e : Int) : (fin m e ≤ zero) ↔ m ≤ 0 := by
  show le (fin m e) (fin 0 0) = true ↔ m ≤ 0
  simp only [le, zero_mul, decide_eq_true_eq]
  have hp : (0 : Int) < ((2 ^ (e - min e 0).toNat : Nat) : Int) := by positivity
  constructor
  · intro h
    by_contra hc
    push_neg at hc
    have := mul_pos hc hp
    omega
  · intro h
    exact mul_nonpos_of_nonpos_of_nonneg h hp.le

theorem round_of_nonpos (m e : Int) (h : m ≤ 0) :
    round m e = ninf ∨ ∃ q e1, round m e = fin q e1 ∧ q ≤ 0 := by
  by_cases hm : m = 0
  · subst hm
    right
    exact ⟨0, 0, round_zero e, le_refl _⟩
  · have hlt : m < 0 := by omega
    unfold round
    rcases roundMag m.natAbs e with ⟨q, e1⟩
    simp only
    by_cases hq : q = 0
    · right
      exact ⟨0, 0, by simp [hq, zero], le_refl _⟩
    · by_cases he : 971 < e1
      · left
        simp [hq, he, hlt]
      · right
        refine ⟨-(q : Int), e1, by simp [hq, he, hlt], by omega⟩

theorem round_of_nonneg (m e : Int) (h : 0 ≤ m) :
    round m e = pinf ∨ ∃ q e1, round m e = fin q e1 ∧ 0 ≤ q := by
  have hn : ¬ (m < 0) := by omega
  unfold round
  rcases roundMag m.natAbs e with ⟨q, e1⟩
  simp only
  by_cases hq : q = 0
  · right
    exact ⟨0, 0, by simp [hq, zero], le_refl _⟩
  · by_cases he : 971 < e1
    · left
      simp [hq, he, hn]
    · right
      refine ⟨(q : Int), e1, by simp [hq, he, hn], by omega⟩

/-- A square is NaN, plus infinity, or a finite value that is not negative. -/
theorem mul_self_cases (d : Dbl) :
    mul d d = nan ∨ mul d d = pinf ∨ ∃ q e1, mul d d = fin q e1 ∧ 0 ≤ q := by
  cases d with
  | nan => left; rfl
  | pinf => right; left; rfl
  | ninf => right; left; rfl
  | fin m e =>
    have := round_of_nonneg (m * m) (e + e) (mul_self_nonneg m)
    rcases this with h | h
    · right; left; simpa [mul] using h
    · right; right; simpa [mul] using h

/-- Subtracting from a non-finite accumulator leaves it non-finite. -/
theorem sub_isfinite_left (f x : Dbl) (h : f.isfinite = false) : (sub f x).isfinite = false := by
  cases f <;> cases x <;> simp_all [sub, isfinite]

/-- Subtracting a non-finite value gives a non-finite value. -/
theorem sub_isfinite_right (f x : Dbl) (h : x.isfinite = false) : (sub f x).isfinite = false := by
  cases f <;> cases x <;> simp_all [sub, isfinite]

end Dbl

/-! ## `FitnessFce` -/

theorem sentinel_eq : sentinel = Dbl.fin (-6724873095247260) 944 := by decide

theorem sentinel_isfinite : sentinel.isfinite = true := by
  rw [sentinel_eq]; rfl

theorem sentinel_le_zero : sentinel ≤ Dbl.zero := by
  rw [sentinel_eq]; decide

/-- On a 4-gene vector `FitnessFce` runs the forward model once, accumulates the
residual loop over its output, and replaces a non-finite total by the sentinel. -/
theorem FitnessFce_four (runge23 : ForwardModel) (ds : DataSet) (buf : Buf) (a e ns y : Dbl) :
    FitnessFce runge23 ds buf [a, e, ns, y]
      = some (if (residualLoop ds (runge23 ds buf a e ns y)).isfinite
                then residualLoop ds (runge23 ds buf a e ns y) else sentinel,
              runge23 ds buf a e ns y) := by
  unfold FitnessFce
  simp only [List.getElem?_cons_zero, List.getElem?_cons_succ]
  cases (residualLoop ds (runge23 ds buf a e ns y)).isfinite <;> simp

/-- The accumulator of the residual loop, while finite, is never positive. -/
theorem residualStep_nonpos (ds : DataSet) (mod : Buf) (f : Dbl) (i : Nat)
    (hf : f.isfinite = true → f ≤ Dbl.zero) :
    (residualStep ds mod f i).isfinite = true → residualStep ds mod f i ≤ Dbl.zero := by
  intro hfin
  unfold residualStep at hfin ⊢
  simp only at hfin ⊢
  generalize Dbl.sub (massFracAt ds i) (mod i) = d at hfin ⊢
  have hff : f.isfinite = true := by
    by_contra hc
    have := Dbl.sub_isfinite_left f (Dbl.mul d d) (by simpa using hc)
    rw [this] at hfin
    exact Bool.noConfusion hfin
  have hsf : (Dbl.mul d d).isfinite = true := by
    by_contra hc
    have := Dbl.sub_isfinite_right f (Dbl.mul d d) (by simpa using hc)
    rw [this] at hfin
    exact Bool.noConfusion hfin
  have hle := hf hff
  rcases Dbl.mul_self_cases d with h | h | ⟨q, e1, h, hq⟩
  · rw [h] at hsf; exact Bool.noConfusion hsf
  · rw [h] at hsf; exact Bool.noConfusion hsf
  · rw [h]
    cases f with
    | nan => exact Bool.noConfusion hff
    | pinf => exact Bool.noConfusion hff
    | ninf => exact Bool.noConfusion hff
    | fin m e =>
      have hm : m ≤ 0 := (Dbl.le_zero_fin m e).1 hle
      have hp1 : (0 : Int) ≤ ((2 ^ (e - min e e1).toNat : Nat) : Int) := by positivity
      have hp2 : (0 : Int) ≤ ((2 ^ (e1 - min e e1).toNat : Nat) : Int) := by positivity
      have hneg : m * ((2 ^ (e - min e e1).toNat : Nat) : Int)
          - q * ((2 ^ (e1 - min e e1).toNat : Nat) : Int) ≤ 0 := by
        have h1 := mul_nonpos_of_nonpos_of_nonneg hm hp1
        have h2 := mul_nonneg hq hp2
        omega
      show Dbl.round _ _ ≤ Dbl.zero
      rcases Dbl.round_of_nonpos _ (min e e1) hneg with hr | ⟨q2, e2, hr, hq2⟩
      · rw [hr]; decide
      · rw [hr]; exact (Dbl.le_zero_fin q2 e2).2 hq2

theorem foldl_residualStep_nonpos (ds : DataSet) (mod : Buf) (l : List Nat) (f : Dbl)
    (hf : f.isfinite = true → f ≤ Dbl.zero) :
    (l.foldl (residualStep ds mod) f).isfinite = true →
      l.foldl (residualStep ds mod) f ≤ Dbl.zero := by
  induction l generalizing f with
  | nil => simpa using hf
  | cons i l ih =>
    rw [List.foldl_cons]
    exact ih _ (residualStep_nonpos ds mod f i hf)

theorem residualLoop_nonpos (ds : DataSet) (mod : Buf) :
    (residualLoop ds mod).isfinite = true → residualLoop ds mod ≤ Dbl.zero :=
  foldl_residualStep_nonpos ds mod _ Dbl.zero (fun _ => by decide)

theorem residualLoop_short (ds : DataSet) (mod : Buf) (h : ds.samples.length ≤ 1) :
    residualLoop ds mod = Dbl.zero := by
  unfold residualLoop
  have : ds.samples.length - 1 = 0 := by omega
  rw [this]
  rfl

/-- **C10.** `FitnessFce` never returns a positive value: on every dataset, for every
forward model and every genome `[A, E, NS, yinf]` it returns a fitness `f` with
`f <= 0`, and `f` is exactly `0.0` when the dataset has 0 or 1 samples, whatever the
genes are. -/
theorem FitnessFce_nonpos (runge23 : ForwardModel) (ds : DataSet) (buf : Buf)
    (a e ns y : Dbl) :
    ∃ f, FitnessFce runge23 ds buf [a, e, ns, y] = some (f, runge23 ds buf a e ns y)
      ∧ f ≤ Dbl.zero ∧ (ds.samples.length ≤ 1 → f = Dbl.zero) := by
  refine ⟨_, FitnessFce_four runge23 ds buf a e ns y, ?_, ?_⟩
  · by_cases hfin : (residualLoop ds (runge23 ds buf a e ns y)).isfinite = true
    · rw [if_pos hfin]
      exact residualLoop_nonpos ds _ hfin
    · rw [if_neg hfin]
      exact sentinel_le_zero
  · intro h
    rw [residualLoop_short ds _ h]
    rfl

/-- **C2.** Fitness totality: for every genome `[A, E, NS, yinf]`, every dataset and
every forward-model output (NaN and infinite entries included) `FitnessFce` returns
a value, that value is finite, it is the sentinel `-1e300` when the accumulated
residual total is not finite, and it is the accumulated total itself otherwise. -/
theorem FitnessFce_total (runge23 : ForwardModel) (ds : DataSet) (buf : Buf)
    (a e ns y : Dbl) :
    ∃ f, FitnessFce runge23 ds buf [a, e, ns, y] = some (f, runge23 ds buf a e ns y)
      ∧ f.isfinite = true
      ∧ ((residualLoop ds (runge23 ds buf a e ns y)).isfinite = false → f = sentinel)
      ∧ ((residualLoop ds (runge23 ds buf a e ns y)).isfinite = true →
            f = residualLoop ds (runge23 ds buf a e ns y)) := by
  refine ⟨_, FitnessFce_four runge23 ds buf a e ns y, ?_, ?_, ?_⟩
  · by_cases hfin : (residualLoop ds (runge23 ds buf a e ns y)).isfinite = true
    · rw [if_pos hfin]; exact hfin
    · rw [if_neg hfin]; exact sentinel_isfinite
  · intro h; simp [h]
  · intro h; simp [h]

theorem foldl_residualStep_neg (ds : DataSet) (mod : Buf) (l : List Nat) (s : Dbl) :
    l.foldl (residualStep ds mod) (Dbl.neg s)
      = Dbl.neg (l.foldl (fun s i =>
          Dbl.add s (Dbl.mul (Dbl.sub (massFracAt ds i) (mod i))
            (Dbl.sub (massFracAt ds i) (mod i)))) s) := by
  induction l generalizing s with
  | nil => rfl
  | cons i l ih =>
    rw [List.foldl_cons, List.foldl_cons, ← ih]
    congr 1
    exact Dbl.sub_neg_left _ _

/-- The residual loop computes the negative of the specification's sum. -/
theorem residualLoop_eq_neg (ds : DataSet) (mod : Buf) :
    residualLoop ds mod = Dbl.neg (sumSqResiduals ds mod) := by
  unfold residualLoop sumSqResiduals
  rw [← foldl_residualStep_neg, Dbl.neg_zero]

/-- The residual loop reads the data and the trajectory at the indices `1 .. n-1` only. -/
theorem residualLoop_congr (ds ds2 : DataSet) (mod mod2 : Buf)
    (hlen : ds2.samples.length = ds.samples.length)
    (hagree : ∀ i, i < ds.samples.length → 1 ≤ i →
      massFracAt ds2 i = massFracAt ds i ∧ mod2 i = mod i) :
    residualLoop ds2 mod2 = residualLoop ds mod := by
  unfold residualLoop
  rw [hlen]
  apply List.foldl_ext
  intro f i hi
  rw [List.mem_range'_1] at hi
  have := hagree i (by omega) hi.1
  unfold residualStep
  rw [this.1, this.2]

/-- **C1.** For a genome `[A, E, NS, yinf]` whose forward-model output is `traj`,
when the sum over `i = 1 .. n-1` of `(dataset[i].mass_fraction - traj[i])^2` is finite,
`FitnessFce` returns exactly its negative.  Index 0 is not read: a second run whose
dataset and trajectory agree with the first at every index `1 .. n-1` (and may
differ at index 0) returns the same fitness. -/
theorem FitnessFce_eq_neg_sumSq (runge23 runge23b : ForwardModel) (ds ds2 : DataSet)
    (buf buf2 : Buf) (a e ns y a2 e2 ns2 y2 : Dbl)
    (hlen : ds2.samples.length = ds.samples.length)
    (hagree : ∀ i, i < ds.samples.length → 1 ≤ i →
      massFracAt ds2 i = massFracAt ds i
        ∧ runge23b ds2 buf2 a2 e2 ns2 y2 i = runge23 ds buf a e ns y i) :
    ((sumSqResiduals ds (runge23 ds buf a e ns y)).isfinite = true →
        FitnessFce runge23 ds buf [a, e, ns, y]
          = some (Dbl.neg (sumSqResiduals ds (runge23 ds buf a e ns y)),
                  runge23 ds buf a e ns y))
      ∧ (FitnessFce runge23b ds2 buf2 [a2, e2, ns2, y2]).map Prod.fst
          = (FitnessFce runge23 ds buf [a, e, ns, y]).map Prod.fst := by
  constructor
  · intro hfin
    rw [FitnessFce_four, residualLoop_eq_neg, Dbl.isfinite_neg, if_pos hfin]
  · rw [FitnessFce_four, FitnessFce_four, residualLoop_congr ds ds2 _ _ hlen hagree]
    rfl

/-- Instance of C1: on `[(0,300,1.0),(10,400,0.8),(20,500,0.5)]` with trajectory
`[1.0, 0.75, 0.5]` the fitness is the negated sum, and changing sample 0 of the data
to `0.9` and of the trajectory to `0.0` leaves it unchanged. -/
theorem FitnessFce_eq_neg_sumSq_witness :
    FitnessFce modelA sampleData nanBuf [Dbl.zero, Dbl.zero, Dbl.zero, Dbl.zero]
        = some (Dbl.neg (sumSqResiduals sampleData
                  (modelA sampleData nanBuf Dbl.zero Dbl.zero Dbl.zero Dbl.zero)),
                modelA sampleData nanBuf Dbl.zero Dbl.zero Dbl.zero Dbl.zero)
      ∧ (FitnessFce modelB sampleDataAlt nanBuf [Dbl.zero, Dbl.zero, Dbl.zero, Dbl.zero]).map
            Prod.fst
          = (FitnessFce modelA sampleData nanBuf [Dbl.zero, Dbl.zero, Dbl.zero, Dbl.zero]).map
              Prod.fst :=
  have h := FitnessFce_eq_neg_sumSq modelA modelB sampleData sampleDataAlt nanBuf nanBuf
    Dbl.zero Dbl.zero Dbl.zero Dbl.zero Dbl.zero Dbl.zero Dbl.zero Dbl.zero
    (by decide) (by decide)
  ⟨h.1 (by decide), h.2⟩

/-- A non-finite trajectory entry at a fitted index makes the accumulator non-finite,
and a non-finite accumulator stays non-finite. -/
theorem foldl_residualStep_nonfinite (ds : DataSet) (mod : Buf) (l : List Nat) (f : Dbl)
    (h : f.isfinite = false ∨ ∃ i ∈ l, (mod i).isfinite = false) :
    (l.foldl (residualStep ds mod) f).isfinite = false := by
  induction l generalizing f with
  | nil =>
    rcases h with h | ⟨i, hi, _⟩
    · simpa using h
    · simp at hi
  | cons j l ih =>
    rw [List.foldl_cons]
    apply ih
    rcases h with h | ⟨i, hi, hnf⟩
    · left
      exact Dbl.sub_isfinite_left _ _ h
    · rcases List.mem_cons.1 hi with rfl | hmem
      · left
        unfold residualStep
        apply Dbl.sub_isfinite_right
        have hd := Dbl.sub_isfinite_right (massFracAt ds i) (mod i) hnf
        revert hd
        generalize Dbl.sub (massFracAt ds i) (mod i) = d
        intro hd
        cases d <;> first | rfl | exact Bool.noConfusion hd
      · right
        exact ⟨i, hmem, hnf⟩

theorem residualLoop_nonfinite (ds : DataSet) (mod : Buf) (i : Nat) (h1 : 1 ≤ i)
    (h2 : i < ds.samples.length) (hnf : (mod i).isfinite = false) :
    (residualLoop ds mod).isfinite = false := by
  unfold residualLoop
  apply foldl_residualStep_nonfinite
  right
  refine ⟨i, ?_, hnf⟩
  rw [List.mem_range'_1]
  omega

/-- **C3, as stated, fails.** On `[(0,300,1.0),(10,400,0.8),(20,500,0.5)]`:
the genome with `A = 0` has a forward-model output containing NaN and gets the
sentinel, the genome with `A = 2` has the finite output `[1.0, 0.75, 1e151]` and a
finite residual total, yet its fitness is strictly below the sentinel; and the
genome with `A = 1`, whose output contains NaN at index 0 only, gets fitness `0.0`,
strictly above the finite-output genome with `A = 3`. -/
theorem sentinel_dominance_counterexample :
    ((modelC sampleData nanBuf (Dbl.ofSci 0 0) Dbl.zero Dbl.zero Dbl.zero 1).isfinite = false
      ∧ (∀ i, i < 3 →
          (modelC sampleData nanBuf (Dbl.ofSci 2 0) Dbl.zero Dbl.zero Dbl.zero i).isfinite = true)
      ∧ (residualLoop sampleData
          (modelC sampleData nanBuf (Dbl.ofSci 2 0) Dbl.zero Dbl.zero Dbl.zero)).isfinite = true
      ∧ (FitnessFce modelC sampleData nanBuf [Dbl.ofSci 0 0, Dbl.zero, Dbl.zero, Dbl.zero]).map
          Prod.fst = some sentinel
      ∧ (FitnessFce modelC sampleData nanBuf [Dbl.ofSci 2 0, Dbl.zero, Dbl.zero, Dbl.zero]).map
          Prod.fst = some (Dbl.fin (-5253807105661922) 951)
      ∧ ¬ (sentinel < Dbl.fin (-5253807105661922) 951)
      ∧ Dbl.fin (-5253807105661922) 951 < sentinel)
    ∧ ((modelC sampleData nanBuf (Dbl.ofSci 1 0) Dbl.zero Dbl.zero Dbl.zero 0).isfinite = false
      ∧ (∀ i, i < 3 →
          (modelC sampleData nanBuf (Dbl.ofSci 3 0) Dbl.zero Dbl.zero Dbl.zero i).isfinite = true)
      ∧ (FitnessFce modelC sampleData nanBuf [Dbl.ofSci 1 0, Dbl.zero, Dbl.zero, Dbl.zero]).map
          Prod.fst = some Dbl.zero
      ∧ (FitnessFce modelC sampleData nanBuf [Dbl.ofSci 3 0, Dbl.zero, Dbl.zero, Dbl.zero]).map
          Prod.fst = some (Dbl.fin (-5764607523034245) (-61))
      ∧ ¬ (Dbl.zero < Dbl.fin (-5764607523034245) (-61))
      ∧ Dbl.fin (-5764607523034245) (-61) < Dbl.zero) := by
  refine ⟨⟨by decide, by decide, by decide, by decide, by decide, by decide, by decide⟩,
    ⟨by decide, by decide, by decide, by decide, by decide, by decide⟩⟩

/-- **C3, amended.** If the forward-model output of genome 1 is non-finite at some
fitted index `1 <= i < n`, its fitness is the sentinel `-1e300`; so it is strictly
below the fitness of every genome 2 whose residual total is finite and above
`-1e300`. -/
theorem sentinel_dominance (runge23 : ForwardModel) (ds : DataSet) (buf bufb : Buf)
    (a1 e1 ns1 y1 a2 e2 ns2 y2 : Dbl) (i : Nat) (hi1 : 1 ≤ i) (hi2 : i < ds.samples.length)
    (hnf : (runge23 ds buf a1 e1 ns1 y1 i).isfinite = false)
    (hfin : (residualLoop ds (runge23 ds bufb a2 e2 ns2 y2)).isfinite = true)
    (habove : sentinel < residualLoop ds (runge23 ds bufb a2 e2 ns2 y2)) :
    ∃ f1 f2, (FitnessFce runge23 ds buf [a1, e1, ns1, y1]).map Prod.fst = some f1
      ∧ (FitnessFce runge23 ds bufb [a2, e2, ns2, y2]).map Prod.fst = some f2
      ∧ f1 = sentinel ∧ f1 < f2 := by
  have h1 := residualLoop_nonfinite ds _ i hi1 hi2 hnf
  refine ⟨sentinel, residualLoop ds (runge23 ds bufb a2 e2 ns2 y2), ?_, ?_, rfl, habove⟩
  · rw [FitnessFce_four]
    simp [h1]
  · rw [FitnessFce_four]
    simp [hfin]

/-- Instance of the amended C3: the diverged genome `A = 0` loses against the
genome `A = 3`, whose output is `[1.0, 0.75, 0.5]`. -/
theorem sentinel_dominance_witness :
    ∃ f1 f2,
      (FitnessFce modelC sampleData nanBuf [Dbl.ofSci 0 0, Dbl.zero, Dbl.zero, Dbl.zero]).map
          Prod.fst = some f1
      ∧ (FitnessFce modelC sampleData nanBuf [Dbl.ofSci 3 0, Dbl.zero, Dbl.zero, Dbl.zero]).map
          Prod.fst = some f2
      ∧ f1 = sentinel ∧ f1 < f2 :=
  sentinel_dominance modelC sampleData nanBuf nanBuf (Dbl.ofSci 0 0) Dbl.zero Dbl.zero Dbl.zero
    (Dbl.ofSci 3 0) Dbl.zero Dbl.zero Dbl.zero 1 (by decide) (by decide) (by decide)
    (by decide) (by decide)

/-! ## `InitPop` -/

namespace Dbl

theorem mul_comm (a b : Dbl) : mul a b = mul b a := by
  cases a <;> cases b <;> try rfl
  rename_i m1 e1 m2 e2
  show round (m1 * m2) (e1 + e2) = round (m2 * m1) (e2 + e1)
  rw [Int.mul_comm m1 m2, Int.add_comm e1 e2]

end Dbl

/-- The source's gene expression is the specification's `seed + z * (seed * u)`. -/
theorem perturb_eq_specGene {S : Type} (rng : Rng S) (seed : Dbl) (s : S) :
    perturb rng seed s = specGene rng seed s := by
  unfold perturb specGene Rng.normalScaled
  rcases rng.uniform s (Dbl.ofSci 0 0) (Dbl.ofSci 2 0) with ⟨u, s1⟩
  rcases hz : rng.normal s1 with ⟨z, s2⟩
  simp only [hz]
  rw [Dbl.mul_comm]

theorem specGene_fst {S : Type} (rng : Rng S) (seed : Dbl) (s : S) :
    ∃ x, (specGene rng seed s).1 = Dbl.add seed x := by
  unfold specGene
  rcases rng.uniform s (Dbl.ofSci 0 0) (Dbl.ofSci 2 0) with ⟨u, s1⟩
  rcases hz : rng.normal s1 with ⟨z, s2⟩
  refine ⟨Dbl.mul z (Dbl.mul seed u), ?_⟩
  simp only [hz]

theorem specGenome_fst {S : Type} (rng : Rng S) (s : S) :
    ∃ xA xE xNS xY, (specGenome rng s).1 = [Dbl.add A_initial xA, Dbl.add E_initial xE,
      Dbl.add NS_initial xNS, Dbl.add yinf_initial xY] := by
  obtain ⟨xA, hA⟩ := specGene_fst rng A_initial s
  rcases h1 : specGene rng A_initial s with ⟨gA, s1⟩
  rw [h1] at hA
  obtain ⟨xE, hE⟩ := specGene_fst rng E_initial s1
  rcases h2 : specGene rng E_initial s1 with ⟨gE, s2⟩
  rw [h2] at hE
  obtain ⟨xNS, hNS⟩ := specGene_fst rng NS_initial s2
  rcases h3 : specGene rng NS_initial s2 with ⟨gNS, s3⟩
  rw [h3] at hNS
  obtain ⟨xY, hY⟩ := specGene_fst rng yinf_initial s3
  rcases h4 : specGene rng yinf_initial s3 with ⟨gY, s4⟩
  rw [h4] at hY
  simp only at hA hE hNS hY
  refine ⟨xA, xE, xNS, xY, ?_⟩
  unfold specGenome
  simp only [h1, h2, h3, h4, hA, hE, hNS, hY]

/-- One pass of the loop of `InitPop` appends one genome: its genes are the
specification's, and its fitness is `FitnessFce` of them on the current scratch array. -/
theorem InitPopBody_spec {S : Type} (rng : Rng S) (runge23 : ForwardModel) (ds : DataSet)
    (pop : List Indi) (s : S) (buf : Buf) :
    ∃ f mod, FitnessFce runge23 ds buf (specGenome rng s).1 = some (f, mod)
      ∧ InitPopBody rng runge23 ds (pop, s, buf)
          = some (pop ++ [⟨(specGenome rng s).1, some f⟩], (specGenome rng s).2, mod) := by
  rcases h1 : specGene rng A_initial s with ⟨gA, s1⟩
  rcases h2 : specGene rng E_initial s1 with ⟨gE, s2⟩
  rcases h3 : specGene rng NS_initial s2 with ⟨gNS, s3⟩
  rcases h4 : specGene rng yinf_initial s3 with ⟨gY, s4⟩
  have hg : specGenome rng s = ([gA, gE, gNS, gY], s4) := by
    unfold specGenome
    simp only [h1, h2, h3, h4]
  rw [hg]
  unfold InitPopBody
  simp only [perturb_eq_specGene, h1, h2, h3, h4, Indi.push_back, List.nil_append,
    List.cons_append, plainEval]
  rw [FitnessFce_four]
  exact ⟨_, _, rfl, rfl⟩

/-- The loop of `InitPop`, run `k` times, appends `k` evaluated genomes whose gene
vectors are the specification's population. -/
theorem iterate_InitPopBody {S : Type} (rng : Rng S) (runge23 : ForwardModel) (ds : DataSet)
    (k : Nat) (pop : List Indi) (s : S) (buf : Buf) :
    ∃ pop2 s2 buf2, iterate (InitPopBody rng runge23 ds) k (pop, s, buf)
        = some (pop ++ pop2, s2, buf2)
      ∧ pop2.length = k
      ∧ pop2.map Indi.genes = specPopulation rng k s
      ∧ ∀ v ∈ pop2, Evaluated runge23 ds v := by
  induction k generalizing pop s buf with
  | zero => exact ⟨[], s, buf, by simp [iterate], rfl, rfl, by simp⟩
  | succ k ih =>
    obtain ⟨f, mod, hf, hbody⟩ := InitPopBody_spec rng runge23 ds pop s buf
    obtain ⟨pop2, s2, buf2, hit, hlen, hgenes, hev⟩ :=
      ih (pop ++ [⟨(specGenome rng s).1, some f⟩]) (specGenome rng s).2 mod
    refine ⟨⟨(specGenome rng s).1, some f⟩ :: pop2, s2, buf2, ?_, ?_, ?_, ?_⟩
    · simp only [iterate, hbody]
      rw [hit]
      simp
    · simp [hlen]
    · simp only [List.map_cons, specPopulation, hgenes]
    · intro v hv
      rcases List.mem_cons.1 hv with rfl | hv
      · obtain ⟨xA, xE, xNS, xY, hx⟩ := specGenome_fst rng s
        refine ⟨?_, ⟨xA, xE, xNS, xY, hx⟩, buf, f, mod, hf, rfl⟩
        simp only [hx, List.length_cons, List.length_nil]
      · exact hev v hv

/-- **C4.** For every population size `POP_SIZE >= 0`, generator state, forward model
and dataset, `InitPop` called on an empty population returns a population of exactly
`POP_SIZE` genomes; each has exactly four genes, perturbations of the seeds in the
order `A, E, NS, yinf`, and a cached fitness equal to `FitnessFce` of its own genes. -/
theorem InitPop_evaluated {S : Type} (rng : Rng S) (runge23 : ForwardModel) (ds : DataSet)
    (popSize : Int) (s : S) (buf : Buf) (hsize : 0 ≤ popSize) :
    ∃ pop s2 buf2, InitPop rng runge23 ds popSize [] s buf = some (pop, s2, buf2)
      ∧ (pop.length : Int) = popSize
      ∧ ∀ v ∈ pop, Evaluated runge23 ds v := by
  obtain ⟨pop2, s2, buf2, hit, hlen, -, hev⟩ :=
    iterate_InitPopBody rng runge23 ds popSize.toNat [] s buf
  refine ⟨pop2, s2, buf2, ?_, ?_, hev⟩
  · unfold InitPop
    rw [hit]
    simp
  · rw [hlen]
    exact Int.toNat_of_nonneg hsize

/-- Instance of C4: `POP_SIZE = 4` on `[(0,300,1.0),(10,400,0.8),(20,500,0.5)]` gives
exactly four evaluated genomes. -/
theorem InitPop_evaluated_witness :
    ∃ pop s2 buf2, InitPop rngCounter modelA sampleData 4 [] 0 nanBuf = some (pop, s2, buf2)
      ∧ (pop.length : Int) = 4
      ∧ ∀ v ∈ pop, Evaluated modelA sampleData v :=
  InitPop_evaluated rngCounter modelA sampleData 4 0 nanBuf (by decide)

/-- **C5.** The gene vectors `InitPop` produces are the specification's: gene `k` of
individual `i` is `seed_k + z * (seed_k * u)` with `u` a `uniform(0, 2)` draw and `z` a
standard-normal draw, taken from the stream in the order `u`, `z` for the genes
`A, E, NS, yinf` of individual 0, then individual 1, and so on.  The right-hand side
mentions neither the dataset nor the forward model, so the genes are a function of
the random stream alone.  Nothing clamps them: when every `u` is `2` and every `z` is
`-1` each gene is `-seed_k`, which is negative. -/
theorem InitPop_genes {S : Type} (rng : Rng S) (runge23 : ForwardModel) (ds : DataSet)
    (popSize : Int) (s : S) (buf : Buf) :
    (∃ pop s2 buf2, InitPop rng runge23 ds popSize [] s buf = some (pop, s2, buf2)
        ∧ pop.map Indi.genes = specPopulation rng popSize.toNat s)
      ∧ (InitPop rngTwoMinusOne runge23 ds 1 [] () buf).map (fun r => r.1.map Indi.genes)
          = some [[Dbl.neg A_initial, Dbl.neg E_initial, Dbl.neg NS_initial,
                    Dbl.neg yinf_initial]]
      ∧ Dbl.neg A_initial < Dbl.zero ∧ Dbl.neg E_initial < Dbl.zero
      ∧ Dbl.neg NS_initial < Dbl.zero ∧ Dbl.neg yinf_initial < Dbl.zero := by
  refine ⟨?_, ?_, by decide, by decide, by decide, by decide⟩
  · obtain ⟨pop2, s2, buf2, hit, -, hgenes, -⟩ :=
      iterate_InitPopBody rng runge23 ds popSize.toNat [] s buf
    refine ⟨pop2, s2, buf2, ?_, hgenes⟩
    unfold InitPop
    rw [hit]
    simp
  · obtain ⟨pop2, s2, buf2, hit, -, hgenes, -⟩ :=
      iterate_InitPopBody rngTwoMinusOne runge23 ds 1 [] () buf
    have h1 : InitPop rngTwoMinusOne runge23 ds 1 [] () buf = some (pop2, s2, buf2) := by
      unfold InitPop
      rw [show (1 : Int).toNat = 1 from rfl, hit]
      simp
    rw [h1]
    simp only [Option.map_some', hgenes]
    decide

/-! ## The prologue of `Run` -/

/-- On a dataset of at most one sample an evaluated genome has fitness `0.0`. -/
theorem Evaluated.fitness_short {runge23 : ForwardModel} {ds : DataSet} {v : Indi}
    (hv : Evaluated runge23 ds v) (hshort : ds.samples.length ≤ 1) :
    v.fitness = some Dbl.zero := by
  obtain ⟨-, ⟨xA, xE, xNS, xY, hg⟩, modData, f, mod, hf, hfit⟩ := hv
  rw [hg, FitnessFce_four, residualLoop_short ds _ hshort] at hf
  have : f = Dbl.zero := by
    have h1 := congrArg (fun o => o.map Prod.fst) hf
    simp only [Option.map_some'] at h1
    have h2 : (Dbl.zero).isfinite = true := rfl
    rw [if_pos h2] at h1
    exact (Option.some.inj h1).symm
  rw [hfit, this]

theorem InitPop_nonpos {S : Type} (rng : Rng S) (runge23 : ForwardModel) (ds : DataSet)
    (popSize : Int) (pop : List Indi) (s : S) (buf : Buf) (h : popSize ≤ 0) :
    InitPop rng runge23 ds popSize pop s buf = some (pop, s, buf) := by
  unfold InitPop
  rw [Int.toNat_of_nonpos h]
  rfl

/-- **C7, as stated, fails.** `Run` on the empty dataset is not rejected: its
prologue returns with a population of 100 genomes, every one of them evaluated (to
fitness `0.0`) against the empty dataset; and `InitPop` with a population size of
`0` or `-3` returns an empty population, again without failing. -/
theorem Run_validation_counterexample :
    (RunPrologue rngCounter modelA emptyData nanBuf 0).map (fun st => st.pop.length) = some 100
      ∧ (RunPrologue rngCounter modelA emptyData nanBuf 0).map
            (fun st => st.pop.map Indi.fitness)
          = some (List.replicate 100 (some Dbl.zero))
      ∧ (InitPop rngCounter modelA emptyData 0 [] 0 nanBuf).map (fun r => r.1) = some []
      ∧ (InitPop rngCounter modelA emptyData (-3) [] 0 nanBuf).map (fun r => r.1) = some [] := by
  refine ⟨by decide, by decide, by decide, by decide⟩

/-- **C7, amended.** `Run` validates nothing before the generational loop: for every
dataset, the empty one included, its prologue returns a population of
`POP_SIZE = 100` genomes, each evaluated by `FitnessFce` against that dataset, and on
the empty dataset each of them has fitness `0.0`; and `InitPop` given a non-positive
population size returns the population unchanged, without failing. -/
theorem RunPrologue_no_validation {S : Type} (rng : Rng S) (runge23 : ForwardModel)
    (ds : DataSet) (fresh : Buf) (s : S) :
    (∃ st, RunPrologue rng runge23 ds fresh s = some st
        ∧ (st.pop.length : Int) = POP_SIZE
        ∧ (∀ v ∈ st.pop, Evaluated runge23 ds v)
        ∧ (ds.samples = [] → ∀ v ∈ st.pop, v.fitness = some Dbl.zero))
      ∧ ∀ (popSize : Int) (pop : List Indi), popSize ≤ 0 →
          InitPop rng runge23 ds popSize pop s fresh = some (pop, s, fresh) := by
  constructor
  · obtain ⟨pop2, s2, buf2, hit, hlen, -, hev⟩ :=
      iterate_InitPopBody rng runge23 ds POP_SIZE.toNat [] (rng.reseed s SEED) fresh
    refine ⟨⟨pop2, s2, buf2⟩, ?_, ?_, hev, ?_⟩
    · unfold RunPrologue InitPop
      simp only [hit, List.nil_append]
    · show (pop2.length : Int) = POP_SIZE
      rw [hlen]
      rfl
    · intro hempty v hv
      exact (hev v hv).fitness_short (by simp [hempty])
  · intro popSize pop h
    exact InitPop_nonpos rng runge23 ds popSize pop s fresh h

/-! ## `SaveResults` -/

theorem foldl_append_singleton {α β : Type} (f : β → α) (l : List β) (out : List α) :
    l.foldl (fun o i => o ++ [f i]) out = out ++ l.map f := by
  induction l generalizing out with
  | nil => simp
  | cons i l ih => simp [List.foldl_cons, ih]

/-- When the file opens, `SaveResults` reruns the forward model and writes the summary
line, the header line and one row per sample, in this order. -/
theorem SaveResults_open (fmt : Dbl → String) (runge23 : ForwardModel) (ds : DataSet)
    (file : Option (List String)) (buf : Buf) (f a e ns y : Dbl) :
    SaveResults fmt runge23 ds true file buf f a e ns y
      = (Except.ok (),
          some (("#Fitness:" ++ fmt f ++ ", A: " ++ fmt a ++ ", E: " ++ fmt e
                  ++ ", NS: " ++ fmt ns ++ ", yinf: " ++ fmt y)
                :: "#Time,Temp,Exp,Model"
                :: (List.range ds.samples.length).map
                      (resultRow fmt ds (runge23 ds buf a e ns y))),
          runge23 ds buf a e ns y) := by
  unfold SaveResults
  simp [foldl_append_singleton]

theorem SaveResults_closed (fmt : Dbl → String) (runge23 : ForwardModel) (ds : DataSet)
    (file : Option (List String)) (buf : Buf) (f a e ns y : Dbl) :
    SaveResults fmt runge23 ds false file buf f a e ns y
      = (Except.error "Unable to write results.xy", file, buf) := by
  unfold SaveResults
  simp

/-- **C6, as stated, fails.** For the best genome `(0, 1, 2, 3, 0)` on the dataset
`[(0,300,1),(10,400,1),(20,500,0)]` with model output `[1, 1, 0]` the file is
`#Fitness:0, A: 1, E: 2, NS: 3, yinf: 0`, `#Time,Temp,Exp,Model` and three rows: the
first line is not `Fitness:0, A:1, E:2, NS:3, yinf:0` and the second is not
`Time,Temp,Exp,Model`. -/
theorem SaveResults_format_counterexample :
    (SaveResults fmtInt modelI intData true none nanBuf (Dbl.ofSci 0 0) (Dbl.ofSci 1 0)
        (Dbl.ofSci 2 0) (Dbl.ofSci 3 0) (Dbl.ofSci 0 0)).2.1
        = some ["#Fitness:0, A: 1, E: 2, NS: 3, yinf: 0", "#Time,Temp,Exp,Model",
                "0,300,1,1", "10,400,1,1", "20,500,0,0"]
      ∧ specSummary fmtInt (Dbl.ofSci 0 0) (Dbl.ofSci 1 0) (Dbl.ofSci 2 0) (Dbl.ofSci 3 0)
          (Dbl.ofSci 0 0) = "Fitness:0, A:1, E:2, NS:3, yinf:0"
      ∧ "#Fitness:0, A: 1, E: 2, NS: 3, yinf: 0"
          ≠ specSummary fmtInt (Dbl.ofSci 0 0) (Dbl.ofSci 1 0) (Dbl.ofSci 2 0) (Dbl.ofSci 3 0)
              (Dbl.ofSci 0 0)
      ∧ "#Time,Temp,Exp,Model" ≠ specHeader := by
  refine ⟨by decide, by decide, by decide, by decide⟩

/-- **C6, amended.** When the file opens, `SaveResults` writes exactly `n + 2` lines for
a dataset of `n` samples: the first is `#Fitness:<f>, A: <a>, E: <e>, NS: <ns>, yinf: <y>`,
the second is `#Time,Temp,Exp,Model`, and line `i + 3` is the row
`time_i,temp_i,mass_fraction_i,model_i` of sample `i`, in dataset order, where `model`
is the forward-model output recomputed for `(a, e, ns, y)`. -/
theorem SaveResults_lines (fmt : Dbl → String) (runge23 : ForwardModel) (ds : DataSet)
    (file : Option (List String)) (buf : Buf) (f a e ns y : Dbl) :
    ∃ lines, SaveResults fmt runge23 ds true file buf f a e ns y
        = (Except.ok (), some lines, runge23 ds buf a e ns y)
      ∧ lines.length = ds.samples.length + 2
      ∧ lines[0]? = some ("#Fitness:" ++ fmt f ++ ", A: " ++ fmt a ++ ", E: " ++ fmt e
                            ++ ", NS: " ++ fmt ns ++ ", yinf: " ++ fmt y)
      ∧ lines[1]? = some "#Time,Temp,Exp,Model"
      ∧ ∀ (i : Nat) (d : ExpData), ds.samples[i]? = some d →
          lines[i + 2]? = some (fmt d.time ++ "," ++ fmt d.temp ++ "," ++ fmt d.massFrac
                                  ++ "," ++ fmt (runge23 ds buf a e ns y i)) := by
  refine ⟨_, SaveResults_open fmt runge23 ds file buf f a e ns y, ?_, ?_, ?_, ?_⟩
  · simp
  · simp
  · simp
  · intro i d hd
    have hi : i < ds.samples.length := by
      rcases Nat.lt_or_ge i ds.samples.length with h | h
      · exact h
      · rw [List.getElem?_eq_none h] at hd
        exact Option.noConfusion hd
    simp only [List.getElem?_cons_succ, List.getElem?_map]
    rw [List.getElem?_range hi]
    simp only [Option.map_some', resultRow, hd]

/-- **C8.** If `results.xy` cannot be opened, `SaveResults` raises the failure
`Unable to write results.xy`, leaves the file as it was (no summary, header or row is
written) and does not rerun the forward model (the scratch array is untouched); it
raises exactly when the open fails; and when the open succeeds the complete file
(summary, header and every row) is written. -/
theorem SaveResults_atomic (fmt : Dbl → String) (runge23 : ForwardModel) (ds : DataSet)
    (openOk : Bool) (file : Option (List String)) (buf : Buf) (f a e ns y : Dbl) :
    (openOk = false →
        SaveResults fmt runge23 ds openOk file buf f a e ns y
          = (Except.error "Unable to write results.xy", file, buf))
      ∧ ((∃ msg, (SaveResults fmt runge23 ds openOk file buf f a e ns y).1 = Except.error msg)
          ↔ openOk = false)
      ∧ (openOk = true →
          (SaveResults fmt runge23 ds openOk file buf f a e ns y).1 = Except.ok ()
          ∧ (SaveResults fmt runge23 ds openOk file buf f a e ns y).2.1
              = some (("#Fitness:" ++ fmt f ++ ", A: " ++ fmt a ++ ", E: " ++ fmt e
                        ++ ", NS: " ++ fmt ns ++ ", yinf: " ++ fmt y)
                      :: "#Time,Temp,Exp,Model"
                      :: (List.range ds.samples.length).map
                            (resultRow fmt ds (runge23 ds buf a e ns y)))) := by
  cases openOk with
  | false =>
    refine ⟨fun _ => SaveResults_closed fmt runge23 ds file buf f a e ns y, ?_, ?_⟩
    · rw [SaveResults_closed]
      exact ⟨fun _ => rfl, fun _ => ⟨_, rfl⟩⟩
    · intro h
      exact Bool.noConfusion h
  | true =>
    refine ⟨fun h => Bool.noConfusion h, ?_, ?_⟩
    · rw [SaveResults_open]
      constructor
      · rintro ⟨msg, h⟩
        exact Except.noConfusion h
      · intro h
        exact Bool.noConfusion h
    · intro _
      rw [SaveResults_open]
      exact ⟨rfl, rfl⟩

/-! ## Replacement -/

namespace Dbl

/-- The `<=` of two finite doubles is the order of the rationals they stand for. -/
theorem le_fin_iff (m1 e1 m2 e2 : Int) :
    le (fin m1 e1) (fin m2 e2) = true ↔ (fin m1 e1).toRat ≤ (fin m2 e2).toRat := by
  simp only [le, decide_eq_true_eq, toRat]
  have ha : ((e1 - min e1 e2).toNat : Int) = e1 - min e1 e2 :=
    Int.toNat_of_nonneg (sub_nonneg.2 (min_le_left _ _))
  have hb : ((e2 - min e1 e2).toNat : Int) = e2 - min e1 e2 :=
    Int.toNat_of_nonneg (sub_nonneg.2 (min_le_right _ _))
  have hc : (0 : ℚ) < (2 : ℚ) ^ (min e1 e2) := zpow_pos (by norm_num) _
  have h1 : (m1 : ℚ) * (2 : ℚ) ^ e1
      = ((m1 * ((2 ^ (e1 - min e1 e2).toNat : Nat) : Int) : Int) : ℚ) * (2 : ℚ) ^ (min e1 e2) := by
    have : e1 = ((e1 - min e1 e2).toNat : Int) + min e1 e2 := by rw [ha]; ring
    conv_lhs => rw [this, zpow_add₀ (by norm_num : (2 : ℚ) ≠ 0), zpow_natCast]
    push_cast
    ring
  have h2 : (m2 : ℚ) * (2 : ℚ) ^ e2
      = ((m2 * ((2 ^ (e2 - min e1 e2).toNat : Nat) : Int) : Int) : ℚ) * (2 : ℚ) ^ (min e1 e2) := by
    have : e2 = ((e2 - min e1 e2).toNat : Int) + min e1 e2 := by rw [hb]; ring
    conv_lhs => rw [this, zpow_add₀ (by norm_num : (2 : ℚ) ≠ 0), zpow_natCast]
    push_cast
    ring
  rw [h1, h2, mul_le_mul_right hc, Int.cast_le]

end Dbl

/-- The comparison `fitLe` is the lexicographic order of rank and rational value. -/
theorem fitLe_iff (x y : Option Dbl) :
    fitLe x y = true ↔
      fitClass x < fitClass y ∨ (fitClass x = fitClass y ∧ fitVal x ≤ fitVal y) := by
  rcases x with _ | x <;> rcases y with _ | y
  · simp [fitLe, fitClass, fitVal]
  · cases y <;> simp [fitLe, fitClass, fitVal, Dbl.toRat]
  · cases x <;> simp [fitLe, fitClass, fitVal, Dbl.toRat]
  · cases x <;> cases y <;> simp only [fitLe, Dbl.le_fin_iff, fitClass, fitVal] <;> simp

theorem fitLe_total (x y : Option Dbl) : fitLe x y = true ∨ fitLe y x = true := by
  rw [fitLe_iff, fitLe_iff]
  rcases lt_trichotomy (fitClass x) (fitClass y) with h | h | h
  · exact Or.inl (Or.inl h)
  · rcases le_total (fitVal x) (fitVal y) with h2 | h2
    · exact Or.inl (Or.inr ⟨h, h2⟩)
    · exact Or.inr (Or.inr ⟨h.symm, h2⟩)
  · exact Or.inr (Or.inl h)

theorem fitLe_trans {x y z : Option Dbl} (h1 : fitLe x y = true) (h2 : fitLe y z = true) :
    fitLe x z = true := by
  rw [fitLe_iff] at h1 h2 ⊢
  rcases h1 with h1 | ⟨h1, h1v⟩ <;> rcases h2 with h2 | ⟨h2, h2v⟩
  · exact Or.inl (lt_trans h1 h2)
  · exact Or.inl (h2 ▸ h1)
  · exact Or.inl (h1 ▸ h2)
  · exact Or.inr ⟨h1.trans h2, le_trans h1v h2v⟩

theorem fitLe_refl (x : Option Dbl) : fitLe x x = true := by
  rw [fitLe_iff]
  exact Or.inr ⟨rfl, le_refl _⟩

theorem fitLe_none (y : Option Dbl) : fitLe none y = true := by
  rw [fitLe_iff]
  rcases Nat.eq_zero_or_pos (fitClass y) with h | h
  · right
    refine ⟨h.symm, ?_⟩
    rcases y with _ | y
    · exact le_refl _
    · cases y with
      | nan => exact le_refl (0 : ℚ)
      | pinf => exact absurd h (by decide)
      | ninf => exact absurd h (by decide)
      | fin m e => exact absurd h (by simp [fitClass])
  · left
    simpa [fitClass] using h

theorem Indi.ge_total : IsTotal Indi Indi.ge := ⟨fun a b => fitLe_total b.fitness a.fitness⟩

theorem Indi.ge_trans : IsTrans Indi Indi.ge := ⟨fun _ _ _ h1 h2 => fitLe_trans h2 h1⟩

/-- The running maximum of `bestFitness` dominates its start value and every
element seen. -/
theorem foldl_best_upper (l : List Indi) (b : Option Dbl) :
    fitLe b (l.foldl (fun b v => if fitLe b v.fitness then v.fitness else b) b) = true
      ∧ ∀ x ∈ l, fitLe x.fitness
          (l.foldl (fun b v => if fitLe b v.fitness then v.fitness else b) b) = true := by
  induction l generalizing b with
  | nil => exact ⟨fitLe_refl b, by simp⟩
  | cons v l ih =>
    rw [List.foldl_cons]
    obtain ⟨h1, h2⟩ := ih (if fitLe b v.fitness then v.fitness else b)
    by_cases hb : fitLe b v.fitness = true
    · rw [if_pos hb] at h1 h2 ⊢
      refine ⟨fitLe_trans hb h1, ?_⟩
      intro x hx
      rcases List.mem_cons.1 hx with rfl | hx
      · exact h1
      · exact h2 x hx
    · rw [if_neg hb] at h1 h2 ⊢
      refine ⟨h1, ?_⟩
      intro x hx
      rcases List.mem_cons.1 hx with rfl | hx
      · have := (fitLe_total b x.fitness).resolve_left hb
        exact fitLe_trans this h1
      · exact h2 x hx

/-- The running maximum of `bestFitness` is its start value or the fitness of an
element. -/
theorem foldl_best_mem (l : List Indi) (b : Option Dbl) :
    l.foldl (fun b v => if fitLe b v.fitness then v.fitness else b) b = b
      ∨ ∃ x ∈ l, l.foldl (fun b v => if fitLe b v.fitness then v.fitness else b) b
          = x.fitness := by
  induction l generalizing b with
  | nil => exact Or.inl rfl
  | cons v l ih =>
    rw [List.foldl_cons]
    rcases ih (if fitLe b v.fitness then v.fitness else b) with h | ⟨x, hx, h⟩
    · by_cases hb : fitLe b v.fitness = true
      · rw [if_pos hb] at h ⊢
        exact Or.inr ⟨v, List.mem_cons_self _ _, h⟩
      · rw [if_neg hb] at h ⊢
        exact Or.inl h
    · exact Or.inr ⟨x, List.mem_cons_of_mem _ hx, h⟩

theorem bestFitness_upper (pop : List Indi) (x : Indi) (hx : x ∈ pop) :
    fitLe x.fitness (bestFitness pop) = true :=
  (foldl_best_upper pop none).2 x hx

theorem bestFitness_mem (pop : List Indi) :
    bestFitness pop = none ∨ ∃ x ∈ pop, bestFitness pop = x.fitness :=
  foldl_best_mem pop none

/-- The replacement keeps a descending prefix of the sorted pool: what it keeps and
what it drops make up the pool, and nothing dropped is fitter than anything kept. -/
theorem plusReplacement_top (popSize : Nat) (parents offspring : List Indi) :
    ∃ rest, (plusReplacement popSize parents offspring ++ rest).Perm (parents ++ offspring)
      ∧ (∀ x ∈ plusReplacement popSize parents offspring, ∀ y ∈ rest,
            fitLe y.fitness x.fitness = true)
      ∧ (plusReplacement popSize parents offspring).Sorted Indi.ge := by
  haveI := Indi.ge_total
  haveI := Indi.ge_trans
  have hs := List.sorted_insertionSort Indi.ge (parents ++ offspring)
  refine ⟨((parents ++ offspring).insertionSort Indi.ge).drop popSize, ?_, ?_, ?_⟩
  · unfold plusReplacement
    rw [List.take_append_drop]
    exact List.perm_insertionSort _ _
  · unfold plusReplacement
    rw [← List.take_append_drop popSize ((parents ++ offspring).insertionSort Indi.ge)] at hs
    exact (List.pairwise_append.1 hs).2.2
  · unfold plusReplacement
    exact List.Pairwise.sublist (List.take_sublist _ _) hs

theorem plusReplacement_length (popSize : Nat) (parents offspring : List Indi)
    (h : popSize ≤ parents.length + offspring.length) :
    (plusReplacement popSize parents offspring).length = popSize := by
  unfold plusReplacement
  rw [List.length_take, List.length_insertionSort, List.length_append]
  exact Nat.min_eq_left h

/-- The best fitness of the replacement is at least the best fitness of the parents. -/
theorem plusReplacement_best (popSize : Nat) (parents offspring : List Indi)
    (h : parents.length = popSize) :
    fitLe (bestFitness parents) (bestFitness (plusReplacement popSize parents offspring))
      = true := by
  rcases bestFitness_mem parents with h0 | ⟨p, hp, hbest⟩
  · rw [h0]
    exact fitLe_none _
  · rw [hbest]
    obtain ⟨rest, hperm, htop, -⟩ := plusReplacement_top popSize parents offspring
    have hpool : p ∈ plusReplacement popSize parents offspring ++ rest :=
      hperm.symm.subset (List.mem_append_left _ hp)
    rcases List.mem_append.1 hpool with hin | hin
    · exact bestFitness_upper _ p hin
    · have hlen := plusReplacement_length popSize parents offspring (by omega)
      have hpos : 0 < popSize := by
        rw [← h]
        exact List.length_pos_of_mem hp
      obtain ⟨x, hx⟩ : ∃ x, x ∈ plusReplacement popSize parents offspring := by
        apply List.exists_mem_of_length_pos
        omega
      exact fitLe_trans (htop x hx p hin) (bestFitness_upper _ x hx)

theorem evolve_length (popSize : Nat) (breed : Nat → List Indi → List Indi)
    (pop0 : List Indi) (h0 : pop0.length = popSize) (g : Nat) :
    (evolve popSize breed pop0 g).length = popSize := by
  induction g with
  | zero => exact h0
  | succ g ih =>
    show (plusReplacement popSize _ _).length = popSize
    apply plusReplacement_length
    omega

/-- **C9.** Under plus-replacement, for every generation `g` of the loop: the
population has size `POP_SIZE` before and after, the next population is the
`POP_SIZE` fittest genomes of the pooled parents and offspring (it and the dropped
genomes make up the pool, nothing dropped is fitter than anything kept, and it is
in descending order), and `best_fitness(g+1) >= best_fitness(g)`.  On finite
fitness values `fitLe` is the `<=` of doubles. -/
theorem evolve_monotone (popSize : Nat) (breed : Nat → List Indi → List Indi)
    (pop0 : List Indi) (h0 : pop0.length = popSize) (g : Nat) :
    (evolve popSize breed pop0 g).length = popSize
      ∧ (evolve popSize breed pop0 (g + 1)).length = popSize
      ∧ (∃ rest, (evolve popSize breed pop0 (g + 1) ++ rest).Perm
            (evolve popSize breed pop0 g ++ breed g (evolve popSize breed pop0 g))
          ∧ (∀ x ∈ evolve popSize breed pop0 (g + 1), ∀ y ∈ rest,
                fitLe y.fitness x.fitness = true)
          ∧ (evolve popSize breed pop0 (g + 1)).Sorted Indi.ge)
      ∧ fitLe (bestFitness (evolve popSize breed pop0 g))
          (bestFitness (evolve popSize breed pop0 (g + 1))) = true
      ∧ ∀ m1 e1 m2 e2, fitLe (some (Dbl.fin m1 e1)) (some (Dbl.fin m2 e2)) = true
          ↔ Dbl.fin m1 e1 ≤ Dbl.fin m2 e2 := by
  have hg := evolve_length popSize breed pop0 h0 g
  refine ⟨hg, evolve_length popSize breed pop0 h0 (g + 1), ?_, ?_, ?_⟩
  · exact plusReplacement_top popSize _ _
  · exact plusReplacement_best popSize _ _ hg
  · intro m1 e1 m2 e2
    exact Iff.rfl

/-- Instance of C9: parents with fitness `{1, 2, 3, 4}` and offspring with fitness
`{0, 5, 1.5, 2.5}`, `POP_SIZE = 4`, give the next generation `{5, 4, 3, 2.5}`. -/
theorem evolve_monotone_witness :
    (evolve 4 (fun _ _ => scenarioOffspring) scenarioParents 1).map Indi.fitness
        = [some (Dbl.ofSci 5 0), some (Dbl.ofSci 4 0), some (Dbl.ofSci 3 0),
            some (Dbl.ofSci 25 (-1))]
      ∧ (evolve 4 (fun _ _ => scenarioOffspring) scenarioParents 1).length = 4
      ∧ fitLe (bestFitness (evolve 4 (fun _ _ => scenarioOffspring) scenarioParents 0))
          (bestFitness (evolve 4 (fun _ _ => scenarioOffspring) scenarioParents 1)) = true :=
  have h := evolve_monotone 4 (fun _ _ => scenarioOffspring) scenarioParents (by decide) 0
  ⟨by decide, h.2.1, h.2.2.2.1⟩

/-! ## Soundness of the binary64 model -/

theorem pow_shift_bounds (n c L : Nat) (hL : 1 ≤ L) (h1 : 2 ^ (L - 1) ≤ n / 2 ^ c)
    (h2 : n / 2 ^ c < 2 ^ L) : 2 ^ (L + c - 1) ≤ n ∧ n < 2 ^ (L + c) := by
  have hc : 0 < 2 ^ c := Nat.two_pow_pos c
  constructor
  · have : L + c - 1 = (L - 1) + c := by omega
    rw [this, pow_add]
    calc 2 ^ (L - 1) * 2 ^ c ≤ (n / 2 ^ c) * 2 ^ c := Nat.mul_le_mul_right _ h1
      _ ≤ n := Nat.div_mul_le_self n (2 ^ c)
  · rw [pow_add]
    exact (Nat.div_lt_iff_lt_mul hc).1 h2

theorem bitlenAux_zero (fuel : Nat) : bitlenAux fuel 0 = 0 := by
  cases fuel <;> simp [bitlenAux]

theorem bitlenAux_step (fuel n c : Nat) (hc : 1 ≤ c) (hn : 2 ^ c ≤ n) (hfuel : n ≤ fuel + 1)
    (ih : ∀ n, n ≤ fuel → n ≠ 0 →
      1 ≤ bitlenAux fuel n ∧ 2 ^ (bitlenAux fuel n - 1) ≤ n ∧ n < 2 ^ (bitlenAux fuel n)) :
    1 ≤ bitlenAux fuel (n / 2 ^ c) + c
      ∧ 2 ^ (bitlenAux fuel (n / 2 ^ c) + c - 1) ≤ n
      ∧ n < 2 ^ (bitlenAux fuel (n / 2 ^ c) + c) := by
  have hpos : 0 < n / 2 ^ c := Nat.div_pos hn (Nat.two_pow_pos c)
  have hlt : n / 2 ^ c < n :=
    Nat.div_lt_self (Nat.lt_of_lt_of_le (Nat.two_pow_pos c) hn) (Nat.one_lt_two_pow (by omega))
  obtain ⟨h0, h1, h2⟩ := ih (n / 2 ^ c) (by omega) (by omega)
  exact ⟨by omega, pow_shift_bounds n c _ h0 h1 h2⟩

theorem bitlenAux_spec (fuel : Nat) : ∀ n, n ≤ fuel → n ≠ 0 →
    1 ≤ bitlenAux fuel n ∧ 2 ^ (bitlenAux fuel n - 1) ≤ n ∧ n < 2 ^ (bitlenAux fuel n) := by
  induction fuel with
  | zero =>
    intro n h hn
    exact absurd (Nat.le_zero.1 h) hn
  | succ fuel ih =>
    intro n hfuel hn
    rw [bitlenAux, if_neg hn]
    split_ifs with hA hB
    · exact bitlenAux_step fuel n 1024 (by decide) hA hfuel ih
    · exact bitlenAux_step fuel n 32 (by decide) hB hfuel ih
    · by_cases h1 : n = 1
      · subst h1
        rw [show (1 : Nat) / 2 = 0 from rfl, bitlenAux_zero]
        decide
      · have h2 : 2 ^ 1 ≤ n := by
          rw [pow_one]
          omega
        have := bitlenAux_step fuel n 1 (le_refl 1) h2 hfuel ih
        rwa [pow_one] at this

/-- For `n > 0`, `bitlen n` is the position of the leading binary digit:
`2 ^ (bitlen n - 1) <= n < 2 ^ bitlen n`. -/
theorem bitlen_spec (n : Nat) (hn : n ≠ 0) :
    1 ≤ bitlen n ∧ 2 ^ (bitlen n - 1) ≤ n ∧ n < 2 ^ bitlen n :=
  bitlenAux_spec n n (le_refl n) hn

/-- The mantissa and exponent `roundMag` returns for a non-zero magnitude are those
of a binary64: fewer than 53 bits of mantissa, exponent at least `-1074`, and a
full 53-bit mantissa unless the exponent is the least one (subnormal range). -/
theorem roundMag_spec (a : Nat) (e : Int) (ha : a ≠ 0) :
    (roundMag a e).1 < 2 ^ 53 ∧ -1074 ≤ (roundMag a e).2
      ∧ (2 ^ 52 ≤ (roundMag a e).1 ∨ (roundMag a e).2 = -1074) := by
  obtain ⟨hL1, hlo, hhi⟩ := bitlen_spec a ha
  unfold roundMag
  generalize bitlen a = L at hL1 hlo hhi ⊢
  have hge1 : (L : Int) + e - 53 ≤ max ((L : Int) + e - 53) (-1074) := le_max_left _ _
  have hge2 : (-1074 : Int) ≤ max ((L : Int) + e - 53) (-1074) := le_max_right _ _
  have hch : max ((L : Int) + e - 53) (-1074) = (L : Int) + e - 53
      ∨ max ((L : Int) + e - 53) (-1074) = -1074 := max_choice _ _
  generalize max ((L : Int) + e - 53) (-1074) = e0 at hge1 hge2 hch ⊢
  simp only []
  by_cases hbr : e0 ≤ e
  · -- exact branch
    rw [if_pos hbr]
    have ht : ((e - e0).toNat : Int) = e - e0 := Int.toNat_of_nonneg (by omega)
    generalize (e - e0).toNat = t at ht ⊢
    have hLt : L + t ≤ 53 := by omega
    refine ⟨?_, hge2, ?_⟩
    · calc a * 2 ^ t < 2 ^ L * 2 ^ t := Nat.mul_lt_mul_of_pos_right hhi (Nat.two_pow_pos t)
        _ = 2 ^ (L + t) := (pow_add 2 L t).symm
        _ ≤ 2 ^ 53 := Nat.pow_le_pow_right (by decide) hLt
    · rcases hch with h | h
      · left
        have hLt2 : L - 1 + t = 52 := by omega
        calc 2 ^ 52 = 2 ^ (L - 1 + t) := by rw [hLt2]
          _ = 2 ^ (L - 1) * 2 ^ t := pow_add 2 (L - 1) t
          _ ≤ a * 2 ^ t := Nat.mul_le_mul_right _ hlo
      · right
        exact h
  · -- rounding branch
    rw [if_neg hbr]
    have hk : ((e0 - e).toNat : Int) = e0 - e := Int.toNat_of_nonneg (by omega)
    generalize (e0 - e).toNat = k at hk ⊢
    have hLk : L ≤ 53 + k := by omega
    have hQ : a / 2 ^ k < 2 ^ 53 := by
      rw [Nat.div_lt_iff_lt_mul (Nat.two_pow_pos k), ← pow_add]
      exact Nat.lt_of_lt_of_le hhi (Nat.pow_le_pow_right (by decide) hLk)
    have hlow : e0 = (L : Int) + e - 53 → 2 ^ 52 ≤ a / 2 ^ k := by
      intro h
      have hL : L - 1 = 52 + k := by omega
      rw [Nat.le_div_iff_mul_le (Nat.two_pow_pos k), ← pow_add, ← hL]
      exact hlo
    have hnext : (2 : Nat) ^ 52 < 2 ^ 53 := Nat.pow_lt_pow_right (by decide) (by decide)
    generalize a / 2 ^ k = Q at hQ hlow ⊢
    generalize (2 : Nat) ^ 53 = B at hQ hnext ⊢
    generalize (2 : Nat) ^ 52 = C at hlow hnext ⊢
    split_ifs with hup hB hB
    · exact ⟨hnext, by omega, Or.inl (le_refl _)⟩
    · refine ⟨by show Q + 1 < B; omega, hge2, ?_⟩
      rcases hch with h | h
      · left
        have := hlow h
        show C ≤ Q + 1
        omega
      · exact Or.inr h
    · exact ⟨hnext, by omega, Or.inl (le_refl _)⟩
    · refine ⟨hQ, hge2, ?_⟩
      rcases hch with h | h
      · exact Or.inl (hlow h)
      · exact Or.inr h

namespace Dbl

/-- Every result of rounding is a binary64 value. -/
theorem round_isBinary64 (m e : Int) : (round m e).IsBinary64 := by
  by_cases hm : m = 0
  · subst hm
    rw [round_zero]
    exact Or.inl ⟨rfl, rfl⟩
  · have ha : m.natAbs ≠ 0 := Int.natAbs_ne_zero.2 hm
    obtain ⟨h1, h2, h3⟩ := roundMag_spec m.natAbs e ha
    unfold round
    rcases hr : roundMag m.natAbs e with ⟨q, e1⟩
    rw [hr] at h1 h2 h3
    simp only at h1 h2 h3 ⊢
    split_ifs with hq hov hneg
    · exact Or.inl ⟨rfl, rfl⟩
    · exact True.intro
    · exact True.intro
    · refine Or.inr ⟨by omega, ?_, h2, by omega, ?_⟩
      · rw [Int.natAbs_neg, Int.natAbs_ofNat]
        exact h1
      · rw [Int.natAbs_neg, Int.natAbs_ofNat]
        exact h3
    · refine Or.inr ⟨by omega, ?_, h2, by omega, ?_⟩
      · rw [Int.natAbs_ofNat]
        exact h1
      · rw [Int.natAbs_ofNat]
        exact h3

theorem add_isBinary64 (a b : Dbl) : (add a b).IsBinary64 := by
  cases a <;> cases b <;> first | exact round_isBinary64 _ _ | exact True.intro

theorem sub_isBinary64 (a b : Dbl) : (sub a b).IsBinary64 := by
  cases a <;> cases b <;> first | exact round_isBinary64 _ _ | exact True.intro

theorem mul_isBinary64 (a b : Dbl) : (mul a b).IsBinary64 := by
  cases a <;> cases b <;>
    first
    | exact round_isBinary64 _ _
    | exact True.intro
    | (simp only [mul]; split_ifs <;> exact True.intro)

theorem ofSci_isBinary64 (n x : Int) : (ofSci n x).IsBinary64 := by
  unfold ofSci
  by_cases h : 0 ≤ x
  · rw [if_pos h]
    exact round_isBinary64 _ _
  · rw [if_neg h]
    generalize (if n < 0 then _ else _ : Int) = q
    exact round_isBinary64 _ _

end Dbl

/-- The literals of the engine and every fitness it computes are binary64 values. -/
theorem engine_values_isBinary64 (ds : DataSet) (mod : Buf) :
    sentinel.IsBinary64 ∧ A_initial.IsBinary64 ∧ E_initial.IsBinary64
      ∧ NS_initial.IsBinary64 ∧ yinf_initial.IsBinary64
      ∧ (residualLoop ds mod).IsBinary64 := by
  refine ⟨Dbl.ofSci_isBinary64 _ _, Dbl.ofSci_isBinary64 _ _, Dbl.ofSci_isBinary64 _ _,
    Dbl.ofSci_isBinary64 _ _, Dbl.ofSci_isBinary64 _ _, ?_⟩
  unfold residualLoop
  generalize List.range' 1 (ds.samples.length - 1) = l
  have h0 : Dbl.zero.IsBinary64 := Or.inl ⟨rfl, rfl⟩
  revert h0
  generalize Dbl.zero = f
  induction l generalizing f with
  | nil => exact fun h => h
  | cons i l ih =>
    intro _
    rw [List.foldl_cons]
    exact ih _ (Dbl.sub_isBinary64 _ _)

/-- Rounding moves a magnitude by at most half a unit in the last place of the
result: `2 * |a * 2^e - q * 2^e1| <= 2^e1` for `(q, e1) = roundMag a e`. -/
theorem roundMag_error (a : Nat) (e : Int) :
    2 * |(a : ℚ) * (2 : ℚ) ^ e - ((roundMag a e).1 : ℚ) * (2 : ℚ) ^ (roundMag a e).2|
      ≤ (2 : ℚ) ^ (roundMag a e).2 := by
  unfold roundMag
  generalize max ((bitlen a : Int) + e - 53) (-1074) = e0
  simp only []
  have h2 : (2 : ℚ) ≠ 0 := by norm_num
  by_cases hbr : e0 ≤ e
  · rw [if_pos hbr]
    have ht : ((e - e0).toNat : Int) = e - e0 := Int.toNat_of_nonneg (by omega)
    generalize (e - e0).toNat = t at ht ⊢
    have he : e = (t : Int) + e0 := by omega
    have hval : (((a * 2 ^ t : Nat) : ℚ)) * (2 : ℚ) ^ e0 = (a : ℚ) * (2 : ℚ) ^ e := by
      rw [he, zpow_add₀ h2, zpow_natCast]
      push_cast
      ring
    simp only [hval, sub_self, abs_zero, mul_zero]
    positivity
  · rw [if_neg hbr]
    have hk : ((e0 - e).toNat : Int) = e0 - e := Int.toNat_of_nonneg (by omega)
    generalize (e0 - e).toNat = k at hk ⊢
    have hk1 : 1 ≤ k := by omega
    have he0 : e0 = (k : Int) + e := by omega
    have hE : (0 : ℚ) < (2 : ℚ) ^ e := zpow_pos (by norm_num) _
    have hpow : (2 : ℚ) ^ e0 = (2 : ℚ) ^ k * (2 : ℚ) ^ e := by
      rw [he0, zpow_add₀ h2, zpow_natCast]
    have hpow1 : (2 : ℚ) ^ (e0 + 1) = 2 * ((2 : ℚ) ^ k * (2 : ℚ) ^ e) := by
      rw [zpow_add₀ h2, zpow_one, hpow]
      ring
    have hdiv : (a : ℚ) = ((a / 2 ^ k : Nat) : ℚ) * (2 : ℚ) ^ k + ((a % 2 ^ k : Nat) : ℚ) := by
      have := Nat.div_add_mod' a (2 ^ k)
      exact_mod_cast this.symm
    have hrlt : ((a % 2 ^ k : Nat) : ℚ) < (2 : ℚ) ^ k := by
      have := Nat.mod_lt a (Nat.two_pow_pos k)
      exact_mod_cast this
    have hhalf : (2 : ℚ) ^ k = 2 * ((2 ^ (k - 1) : Nat) : ℚ) := by
      have : k = (k - 1) + 1 := by omega
      conv_lhs => rw [this, pow_succ]
      push_cast
      ring
    have hr0 : (0 : ℚ) ≤ ((a % 2 ^ k : Nat) : ℚ) := Nat.cast_nonneg _
    -- the error before renormalisation
    have hup : (2 ^ (k - 1) : Nat) ≤ a % 2 ^ k →
        2 * |(a : ℚ) * (2 : ℚ) ^ e - (((a / 2 ^ k : Nat) : ℚ) + 1) * ((2 : ℚ) ^ k * (2 : ℚ) ^ e)|
          ≤ (2 : ℚ) ^ k * (2 : ℚ) ^ e := by
      intro hge
      have hge2 : ((2 ^ (k - 1) : Nat) : ℚ) ≤ ((a % 2 ^ k : Nat) : ℚ) := by exact_mod_cast hge
      have : (a : ℚ) * (2 : ℚ) ^ e - (((a / 2 ^ k : Nat) : ℚ) + 1) * ((2 : ℚ) ^ k * (2 : ℚ) ^ e)
          = -(((2 : ℚ) ^ k - ((a % 2 ^ k : Nat) : ℚ)) * (2 : ℚ) ^ e) := by
        conv_lhs => rw [hdiv]
        ring
      rw [this, abs_neg, abs_of_nonneg (mul_nonneg (by linarith) hE.le)]
      nlinarith
    have hdown : a % 2 ^ k ≤ (2 ^ (k - 1) : Nat) →
        2 * |(a : ℚ) * (2 : ℚ) ^ e - ((a / 2 ^ k : Nat) : ℚ) * ((2 : ℚ) ^ k * (2 : ℚ) ^ e)|
          ≤ (2 : ℚ) ^ k * (2 : ℚ) ^ e := by
      intro hle
      have hle2 : ((a % 2 ^ k : Nat) : ℚ) ≤ ((2 ^ (k - 1) : Nat) : ℚ) := by exact_mod_cast hle
      have : (a : ℚ) * (2 : ℚ) ^ e - ((a / 2 ^ k : Nat) : ℚ) * ((2 : ℚ) ^ k * (2 : ℚ) ^ e)
          = ((a % 2 ^ k : Nat) : ℚ) * (2 : ℚ) ^ e := by
        conv_lhs => rw [hdiv]
        ring
      rw [this, abs_of_nonneg (mul_nonneg hr0 hE.le)]
      nlinarith
    have hbig : (0 : ℚ) ≤ (2 : ℚ) ^ k * (2 : ℚ) ^ e := by positivity
    by_cases hcond : 2 ^ (k - 1) < a % 2 ^ k ∨ (a % 2 ^ k = 2 ^ (k - 1) ∧ a / 2 ^ k % 2 = 1)
    · have hge : (2 ^ (k - 1) : Nat) ≤ a % 2 ^ k := by
        rcases hcond with h | h
        · exact h.le
        · exact h.1.ge
      have herr := hup hge
      rw [if_pos hcond]
      by_cases hB : a / 2 ^ k + 1 = 2 ^ 53
      · rw [if_pos hB]
        simp only
        have hv : (((2 ^ 52 : Nat) : ℚ)) * (2 : ℚ) ^ (e0 + 1)
            = (((a / 2 ^ k : Nat) : ℚ) + 1) * ((2 : ℚ) ^ k * (2 : ℚ) ^ e) := by
          have hB2 : (((a / 2 ^ k : Nat) : ℚ) + 1) = ((2 ^ 53 : Nat) : ℚ) := by exact_mod_cast hB
          rw [hB2, hpow1]
          push_cast
          ring
        rw [hv, hpow1]
        linarith
      · rw [if_neg hB]
        simp only
        rw [hpow]
        push_cast
        exact herr
    · have hle : a % 2 ^ k ≤ (2 ^ (k - 1) : Nat) := by
        by_contra hc
        exact hcond (Or.inl (by omega))
      have herr := hdown hle
      rw [if_neg hcond]
      by_cases hB : a / 2 ^ k = 2 ^ 53
      · rw [if_pos hB]
        simp only
        have hv : (((2 ^ 52 : Nat) : ℚ)) * (2 : ℚ) ^ (e0 + 1)
            = ((a / 2 ^ k : Nat) : ℚ) * ((2 : ℚ) ^ k * (2 : ℚ) ^ e) := by
          have hB2 : ((a / 2 ^ k : Nat) : ℚ) = ((2 ^ 53 : Nat) : ℚ) := by exact_mod_cast hB
          rw [hB2, hpow1]
          push_cast
          ring
        rw [hv, hpow1]
        linarith
      · rw [if_neg hB]
        simp only
        rw [hpow]
        exact herr

/-- A magnitude that already is a binary64 mantissa and exponent is left as it is. -/
theorem roundMag_exact (a : Nat) (e : Int) (ha : a ≠ 0) (h53 : a < 2 ^ 53) (he : -1074 ≤ e)
    (hn : 2 ^ 52 ≤ a ∨ e = -1074) : roundMag a e = (a, e) := by
  obtain ⟨hL1, hlo, hhi⟩ := bitlen_spec a ha
  unfold roundMag
  generalize bitlen a = L at hL1 hlo hhi ⊢
  have hL53 : L ≤ 53 := by
    by_contra hc
    have h1 : 2 ^ 53 ≤ 2 ^ (L - 1) := Nat.pow_le_pow_right (by decide) (by omega)
    exact absurd (Nat.lt_of_le_of_lt (Nat.le_trans h1 hlo) h53) (lt_irrefl _)
  have he0 : max ((L : Int) + e - 53) (-1074) = e := by
    rcases hn with h | h
    · have hL : 53 ≤ L := by
        by_contra hc
        have h1 : 2 ^ L ≤ 2 ^ 52 := Nat.pow_le_pow_right (by decide) (by omega)
        exact absurd (Nat.lt_of_lt_of_le hhi (Nat.le_trans h1 h)) (lt_irrefl _)
      have : (L : Int) + e - 53 = e := by omega
      rw [this]
      exact max_eq_left he
    · rw [h]
      apply max_eq_right
      omega
  simp only [he0, le_refl, if_true, sub_self, Int.toNat_zero, pow_zero, mul_one]

namespace Dbl

/-- Rounding leaves every binary64 value as it is. -/
theorem round_exact (m e : Int) (h : (fin m e).IsBinary64) : round m e = fin m e := by
  rcases h with ⟨hm, he⟩ | ⟨hm, h53, hlo, hhi, hn⟩
  · subst hm
    subst he
    exact round_zero 0
  · have ha : m.natAbs ≠ 0 := Int.natAbs_ne_zero.2 hm
    unfold round
    rw [roundMag_exact m.natAbs e ha h53 hlo hn]
    simp only [ha, if_false, not_lt.2 hhi]
    by_cases hneg : m < 0
    · rw [if_pos hneg]
      congr 1
      omega
    · rw [if_neg hneg]
      congr 1
      omega

end Dbl

/-! ### Worked values

Each line agrees with what an IEEE-754 machine computes. -/

namespace Dbl

/-- The literals of the engine as binary64 values. -/
theorem literal_values :
    A_initial = fin 5621760000000000 (-10) ∧ E_initial = fin 5841155522560000 (-35)
      ∧ NS_initial = fin 8016407336719483 (-51) ∧ yinf_initial = fin 8345782599066851 (-55)
      ∧ sentinel = fin (-6724873095247260) 944 := by
  refine ⟨by decide, by decide, by decide, by decide, by decide⟩

/-- Rounding in sums and differences: `0.1 + 0.2` is `0.30000000000000004` and
`1.0 - 0.9` is `0.09999999999999998`. -/
theorem worked_add_sub :
    add (ofSci 1 (-1)) (ofSci 2 (-1)) = fin 5404319552844596 (-54)
      ∧ sub (ofSci 1 0) (ofSci 9 (-1)) = fin 7205759403792792 (-56) := by
  refine ⟨by decide, by decide⟩

set_option maxRecDepth 4000 in
/-- Overflow and the largest finite value: `1e308 * 10` is infinite and
`1.7976931348623157e308` is `(2 ^ 53 - 1) * 2 ^ 971`. -/
theorem worked_overflow :
    mul (ofSci 1 308) (ofSci 10 0) = pinf
      ∧ ofSci 17976931348623157 292 = fin 9007199254740991 971
      ∧ round ((2 ^ 1024 - 2 ^ 970 : Nat) : Int) 0 = pinf
      ∧ round ((2 ^ 1024 - 2 ^ 970 - 1 : Nat) : Int) 0 = fin 9007199254740991 971 := by
  refine ⟨by decide, by decide, by decide, by decide⟩

/-- Gradual underflow: `1e-160 * 1e-160` is the subnormal `2024 * 2 ^ -1074`,
`1e-200 * 1e-200` is zero, and half of the least subnormal rounds to zero. -/
theorem worked_underflow :
    mul (ofSci 1 (-160)) (ofSci 1 (-160)) = fin 2024 (-1074)
      ∧ mul (ofSci 1 (-200)) (ofSci 1 (-200)) = zero
      ∧ mul (fin 1 (-1074)) (ofSci 5 (-1)) = zero
      ∧ mul (fin 1 (-1074)) (ofSci 15 (-1)) = fin 2 (-1074) := by
  refine ⟨by decide, by decide, by decide, by decide⟩

/-- Ties go to the even mantissa: `2 ^ 53 + 1` rounds down to `2 ^ 53`, `2 ^ 53 + 3`
rounds up to `2 ^ 53 + 4`. -/
theorem worked_ties :
    round ((2 ^ 53 + 1 : Nat) : Int) 0 = fin 4503599627370496 1
      ∧ round ((2 ^ 53 + 3 : Nat) : Int) 0 = fin 4503599627370498 1 := by
  refine ⟨by decide, by decide⟩

end Dbl

end PyrolysisGA
